import Mathlib

/-!
Shallow embedding of the Akinator inference engine from `akinator_logic.py`
(class `AkinatorEfficientWeb`).  Probabilities are modelled exactly as
rational numbers; the engine's floating-point epsilon `1e-9` becomes the
rational `eps = 1/10^9`.  The per-game mutable state (`self.probabilities`,
`self.asked_attributes`, `self.questions_asked_count`) becomes an explicit
`GameState` value threaded through every operation; the probability
dictionary, whose key set always equals `all_person_names` for every state
the API can produce, is represented as a list of rationals parallel to the
catalog's name list.  Entropy-based code (which calls `math.log2`) is
embedded with real-valued results further below.
-/

/-- Threshold `1e-9` used throughout the source for "effectively zero". -/
def eps : ℚ := 1 / 1000000000

/-- Game parameter `self.certainty_threshold = 0.85`. -/
def certaintyThreshold : ℚ := 85 / 100

/-- Game parameter `self.min_questions_before_confident_guess = 5`. -/
def minQuestionsBeforeConfidentGuess : ℕ := 5

/-- Game parameter `self.soft_elimination_questions_count = 3`. -/
def softEliminationQuestionsCount : ℕ := 3

/-- Game parameter `self.match_multiplier_soft = 1.0`. -/
def matchMultiplierSoft : ℚ := 1

/-- Game parameter `self.mismatch_multiplier_soft = 0.4`. -/
def mismatchMultiplierSoft : ℚ := 4 / 10

/-- Game parameter `self.top_k_candidates_focus = 5`. -/
def topKCandidatesFocus : ℕ := 5

/-- The immutable catalog: `self.person_attributes_map`, a mapping from
person name to an attribute-name → binary-value mapping, represented as an
association list (Python dictionaries have unique keys). -/
structure Catalog where
  people : List (String × List (String × Int))
deriving DecidableEq

/-- Association-list lookup returning an `Option`, mirroring `dict.get`
with no default.  Python dictionaries have unique keys, so first-match
lookup is faithful. -/
def lookupPair : List (String × ℚ) → String → Option ℚ
  | [], _ => none
  | e :: rest, k => if e.1 = k then some e.2 else lookupPair rest k

/-- Lookup in a person's attribute mapping, defaulting to `0`:
`...get(attribute, 0)`. -/
def lookupAttrValue : List (String × Int) → String → Int
  | [], _ => 0
  | e :: rest, k => if e.1 = k then e.2 else lookupAttrValue rest k

/-- Lookup of a person's attribute mapping, defaulting to the empty
mapping: `self.person_attributes_map.get(name, {})`. -/
def lookupPerson : List (String × List (String × Int)) → String → List (String × Int)
  | [], _ => []
  | e :: rest, k => if e.1 = k then e.2 else lookupPerson rest k

/-- `self.all_person_names`: the catalog's name list. -/
def allPersonNames (c : Catalog) : List String :=
  c.people.map Prod.fst

/-- `self.person_attributes_map.get(name, {}).get(attribute, 0)`. -/
def personAttrVal (c : Catalog) (name attrName : String) : Int :=
  lookupAttrValue (lookupPerson c.people name) attrName

/-- `self.all_available_attributes`: the set of attribute names appearing
across all people.  The source materialises a Python `set` into a list in
unspecified order; we fix the canonical first-encounter order. -/
def allAvailableAttributes (c : Catalog) : List String :=
  ((c.people.map (fun p => p.2.map Prod.fst)).flatten).dedup

/-- Per-game mutable state.  `probabilities` is parallel to
`allPersonNames`; `asked` models the `self.asked_attributes` set as a
duplicate-free list; `questionsAskedCount` is `self.questions_asked_count`. -/
structure GameState where
  probabilities : List ℚ
  asked : List String
  questionsAskedCount : ℕ
deriving DecidableEq

/-- `reset_game_state`: uniform probabilities `1/len(all_person_names)`,
empty asked set, zero question counter. -/
def reset_game_state (c : Catalog) : GameState :=
  { probabilities := (allPersonNames c).map (fun _ => 1 / ((allPersonNames c).length : ℚ))
    asked := []
    questionsAskedCount := 0 }

/-- The two elimination loops of `_update_probabilities` (before
normalization).  The soft loop multiplies by the match/mismatch
multipliers; the hard loop zeroes mismatching people; both skip anyone
whose current probability is below `1e-9`. -/
def apply_elimination (c : Catalog) (attrName : String) (userAnswer : Int)
    (questionsAskedCount : ℕ) (probs : List ℚ) : List ℚ :=
  if questionsAskedCount ≤ softEliminationQuestionsCount then
    ((allPersonNames c).zip probs).map (fun np =>
      if np.2 < eps then np.2
      else if personAttrVal c np.1 attrName = userAnswer then np.2 * matchMultiplierSoft
      else np.2 * mismatchMultiplierSoft)
  else
    ((allPersonNames c).zip probs).map (fun np =>
      if np.2 < eps then np.2
      else if personAttrVal c np.1 attrName ≠ userAnswer then 0
      else np.2)

/-- `_update_probabilities`: run the elimination pass, then either signal
contradiction (sum below `1e-9`; the mutated unnormalized values are kept,
as in the source) or renormalize and report success. -/
def update_probabilities (c : Catalog) (attrName : String) (userAnswer : Int)
    (questionsAskedCount : ℕ) (probs : List ℚ) : Bool × List ℚ :=
  let updated := apply_elimination c attrName userAnswer questionsAskedCount probs
  let currentSum := updated.sum
  if currentSum < eps then (false, updated)
  else (true, updated.map (fun p => p / currentSum))

/-- Result statuses of `record_answer_and_update`: the `{"error": ...}`
dictionary, the `"contradiction"` status and the `"updated"` status. -/
inductive UpdateStatus where
  | invalidAttribute : UpdateStatus
  | contradiction : UpdateStatus
  | updated : UpdateStatus
deriving DecidableEq

/-- `record_answer_and_update`: rejects unknown attribute names before any
mutation; otherwise increments the question counter, adds the attribute to
the asked set (re-asking an already-asked attribute is deliberately not
rejected) and runs `_update_probabilities` with the post-increment count. -/
def record_answer_and_update (c : Catalog) (s : GameState) (attrName : String)
    (userAnswerBinary : Int) : UpdateStatus × GameState :=
  if attrName ∉ allAvailableAttributes c then (.invalidAttribute, s)
  else
    let count' := s.questionsAskedCount + 1
    let asked' := if attrName ∈ s.asked then s.asked else s.asked ++ [attrName]
    let r := update_probabilities c attrName userAnswerBinary count' s.probabilities
    if r.1 then (.updated, ⟨r.2, asked', count'⟩)
    else (.contradiction, ⟨r.2, asked', count'⟩)

/-- `handle_wrong_guess`: if the guessed name is truthy and a known key,
multiply its probability by `0.01`, renormalize when the total still
exceeds `1e-9`, and report recognition. -/
def handle_wrong_guess (c : Catalog) (s : GameState) (guessedName : String) :
    Bool × GameState :=
  if guessedName ≠ "" ∧ guessedName ∈ allPersonNames c then
    let updated := ((allPersonNames c).zip s.probabilities).map
      (fun np => if np.1 = guessedName then np.2 * (1 / 100) else np.2)
    let currentSum := updated.sum
    let final := if eps < currentSum then updated.map (fun p => p / currentSum) else updated
    (true, { s with probabilities := final })
  else (false, s)

/-- Python's `max(active_probs, key=active_probs.get)` keeps the first
element whose value strictly exceeds the running best, hence returns the
first maximiser in insertion order. -/
def argmaxFirst : List (String × ℚ) → Option (String × ℚ)
  | [] => none
  | x :: xs => some (xs.foldl (fun acc y => if acc.2 < y.2 then y else acc) x)

/-- `_get_current_guess_info`: the best (first-maximal) active candidate
and its probability, or `(None, 0)` when nothing is active. -/
def get_current_guess_info (c : Catalog) (s : GameState) : Option String × ℚ :=
  if s.probabilities = [] then (none, 0)
  else
    let active := ((allPersonNames c).zip s.probabilities).filter (fun np => decide (eps < np.2))
    match argmaxFirst active with
    | none => (none, 0)
    | some best => (some best.1, best.2)

/-- The five distinct return shapes of `get_guess_if_ready`. -/
inductive GuessResult where
  | noMatch : GuessResult
  | confident : Option String → ℚ → GuessResult
  | allAsked : Option String → ℚ → GuessResult
  | stumped : GuessResult
  | askMore : GuessResult
deriving DecidableEq

/-- `get_guess_if_ready`: the guess policy.  `remaining` counts
probabilities above `1e-9`; the confident branch fires once the question
floor is met and either the best probability reaches the certainty
threshold or a single candidate with probability above `0.01` remains (in
which case the displayed certainty is forced to `1.0`). -/
def get_guess_if_ready (c : Catalog) (s : GameState) : GuessResult :=
  let info := get_current_guess_info c s
  let remaining := (s.probabilities.filter (fun p => decide (eps < p))).length
  if remaining = 0 ∧ 0 < s.questionsAskedCount then .noMatch
  else if minQuestionsBeforeConfidentGuess ≤ s.questionsAskedCount ∧
      (certaintyThreshold ≤ info.2 ∨ (remaining = 1 ∧ 1 / 100 < info.2)) then
    .confident info.1 (if 1 < remaining then info.2 else 1)
  else if (allAvailableAttributes c).length ≤ s.asked.length then
    if info.1.getD "" ≠ "" ∧ 1 / 100 < info.2 then .allAsked info.1 info.2
    else .stumped
  else .askMore

/-- Relative share of the identity at index `i` in a probability list. -/
def relShare (probs : List ℚ) (i : ℕ) : ℚ :=
  probs.getD i 0 / probs.sum

/-- One summand of the Shannon entropy: `p * math.log2(p)`. -/
noncomputable def realTerm (p : ℚ) : ℝ :=
  (p : ℝ) * Real.logb 2 (p : ℝ)

/-- `_calculate_entropy`: drop negligible values, renormalize when the
remaining sum deviates from 1 by more than `1e-9` (and is itself above
`1e-9`), then return `-Σ p·log2(p)` over the values still above `1e-9`. -/
noncomputable def calculate_entropy (values : List ℚ) : ℝ :=
  if values = [] then 0
  else
    let probs := values.filter (fun p => decide (eps < p))
    if probs = [] then 0
    else
      let currentSum := probs.sum
      let probs2 :=
        if eps < |currentSum - 1| ∧ eps < currentSum then probs.map (fun p => p / currentSum)
        else probs
      Neg.neg (((probs2.filter (fun p => decide (eps < p))).map realTerm).sum)

/-- The `subset_probs_dict` of `_calculate_info_gain_for_subset`: each
subset member that is a known key with probability above `1e-9`, paired
with that (raw, not subset-normalized) probability. -/
def subsetProbsDict (c : Catalog) (s : GameState) (subset : List String) :
    List (String × ℚ) :=
  subset.filterMap (fun name =>
    match lookupPair ((allPersonNames c).zip s.probabilities) name with
    | some p => if eps < p then some (name, p) else none
    | none => none)

/-- The loop body of `_calculate_info_gain_for_subset` for one attribute:
split the subset by `person_attr_val == 1`, weight each side's internally
renormalized entropy by its share of the subset's probability mass, and
subtract from the subset entropy. -/
noncomputable def infoGainForAttr (c : Catalog) (dict : List (String × ℚ)) (subsetSum : ℚ)
    (subsetEntropy : ℝ) (attrName : String) : ℝ :=
  let yesMembers := dict.filter (fun np => decide (personAttrVal c np.1 attrName = 1))
  let noMembers := dict.filter (fun np => decide (¬personAttrVal c np.1 attrName = 1))
  let probAnsYes := (yesMembers.map Prod.snd).sum
  let probAnsNo := (noMembers.map Prod.snd).sum
  let entropyIfYes := calculate_entropy (yesMembers.map Prod.snd)
  let entropyIfNo := calculate_entropy (noMembers.map Prod.snd)
  subsetEntropy -
    (((probAnsYes / subsetSum : ℚ) : ℝ) * entropyIfYes +
      ((probAnsNo / subsetSum : ℚ) : ℝ) * entropyIfNo)

open Classical in
/-- One step of the arg-max fold over candidate attributes: replace the
accumulator exactly when the new gain strictly exceeds the running
maximum (initially `-1.0`). -/
noncomputable def igStep (c : Catalog) (dict : List (String × ℚ)) (subsetSum : ℚ)
    (subsetEntropy : ℝ) (acc : Option String × ℝ) (attrName : String) : Option String × ℝ :=
  let g := infoGainForAttr c dict subsetSum subsetEntropy attrName
  if acc.2 < g then (some attrName, g) else acc

/-- Real-number copy of the `1e-9` threshold for the final gain test. -/
noncomputable def epsR : ℝ := ((eps : ℚ) : ℝ)

open Classical in
/-- `_calculate_info_gain_for_subset`: guards, subset extraction, subset
entropy on the subset-normalized probabilities, arg-max of information
gain over the candidate attributes, returned only when the best gain
exceeds `1e-9`. -/
noncomputable def calculate_info_gain_for_subset (c : Catalog) (s : GameState)
    (subset : List String) (attrsToEvaluate : List String) : Option String :=
  if subset = [] then none
  else if subset.length = 1 ∧ minQuestionsBeforeConfidentGuess ≤ s.questionsAskedCount then none
  else
    let dict := subsetProbsDict c s subset
    if dict = [] then none
    else
      let subsetSum := (dict.map Prod.snd).sum
      if subsetSum < eps then none
      else
        let subsetEntropy := calculate_entropy (dict.map (fun np => np.2 / subsetSum))
        let best := attrsToEvaluate.foldl (igStep c dict subsetSum subsetEntropy) (none, -1)
        if epsR < best.2 then best.1 else none

/-- `_get_top_k_candidates`: the names of the top `k` active candidates
by probability (stable descending sort, mirroring Python's stable
`sorted(..., reverse=True)`). -/
def get_top_k_candidates (c : Catalog) (s : GameState) (k : ℕ) : List String :=
  let active := ((allPersonNames c).zip s.probabilities).filter (fun np => decide (eps < np.2))
  if active = [] then []
  else ((active.mergeSort (fun x y => decide (y.2 ≤ x.2))).take k).map Prod.fst

/-- The unasked attributes, in catalog-attribute order. -/
def unaskedAttributesOf (c : Catalog) (s : GameState) : List String :=
  (allAvailableAttributes c).filter (fun a => decide (a ∉ s.asked))

/-- The names of the identities with probability above `1e-9`. -/
def activeCandidateNamesOf (c : Catalog) (s : GameState) : List String :=
  (((allPersonNames c).zip s.probabilities).filter (fun np => decide (eps < np.2))).map Prod.fst

/-- `select_next_question`: focus phase on the top-k candidates after the
soft-elimination window, global information-gain phase, a fallback scan
for any unasked attribute that still varies among active candidates, and
the `unasked_attributes[0]` last resort. -/
noncomputable def select_next_question (c : Catalog) (s : GameState) : Option String :=
  let unasked := unaskedAttributesOf c s
  if unasked = [] then none
  else
    let active := activeCandidateNamesOf c s
    if active = [] then none
    else
      let focused : Option String :=
        if softEliminationQuestionsCount < s.questionsAskedCount then
          let topK := get_top_k_candidates c s topKCandidatesFocus
          if 2 ≤ topK.length then calculate_info_gain_for_subset c s topK unasked
          else none
        else none
      match focused with
      | some q => some q
      | none =>
        match calculate_info_gain_for_subset c s active unasked with
        | some q => some q
        | none =>
          match unasked.find? (fun a =>
              decide (1 < ((active.map (fun n => personAttrVal c n a)).dedup).length)) with
          | some a => some a
          | none => unasked.head?

/-- The gain value computed by the source for one `(subset, attribute)`
pair: subset entropy on the subset-normalized probabilities minus the
mass-weighted average of the two groups' internally renormalized
entropies. -/
noncomputable def computedInfoGain (c : Catalog) (s : GameState) (subset : List String)
    (attrName : String) : ℝ :=
  let dict := subsetProbsDict c s subset
  let subsetSum := (dict.map Prod.snd).sum
  infoGainForAttr c dict subsetSum
    (calculate_entropy (dict.map (fun np => np.2 / subsetSum))) attrName

/-- Reachability of a belief state through the public API from a fresh
game: `reset_game_state` followed by any sequence of
`record_answer_and_update` and `handle_wrong_guess` calls. -/
inductive Reachable (c : Catalog) : GameState → Prop
  | init : Reachable c (reset_game_state c)
  | stepAnswer {s : GameState} (attrName : String) (ans : Int) :
      Reachable c s → Reachable c (record_answer_and_update c s attrName ans).2
  | stepWrongGuess {s : GameState} (name : String) :
      Reachable c s → Reachable c (handle_wrong_guess c s name).2

/-- Scenario catalog from the spec: `{X:{a:1,b:0}, Y:{a:0,b:1}, Z:{a:1,b:1}}`. -/
def cat3 : Catalog :=
  ⟨[("X", [("a", 1), ("b", 0)]), ("Y", [("a", 0), ("b", 1)]), ("Z", [("a", 1), ("b", 1)])]⟩

/-- Uniform start over `cat3`. -/
def uniform3 : GameState := ⟨[1/3, 1/3, 1/3], [], 0⟩

/-- Uniform probabilities over `cat3` with three questions already
answered, so that the next processed answer is the fourth. -/
def countThree3 : GameState := ⟨[1/3, 1/3, 1/3], [], 3⟩


/-- Two-person catalog `{X:{a:1,b:0}, Y:{a:1,b:1}}` used to build a
reachable state carrying a positive probability below `1e-9`. -/
def cat2 : Catalog :=
  ⟨[("X", [("a", 1), ("b", 0)]), ("Y", [("a", 1), ("b", 1)])]⟩

/-- Fresh game over `cat2`. -/
def trace0 : GameState := reset_game_state cat2

/-- Three soft answers `a = 1` (both people match, probabilities stay
uniform) to advance the question counter to the hard-regime boundary. -/
def trace1 : GameState := (record_answer_and_update cat2 trace0 ("a") 1).2

def trace2 : GameState := (record_answer_and_update cat2 trace1 ("a") 1).2

def trace3 : GameState := (record_answer_and_update cat2 trace2 ("a") 1).2

/-- Five wrong guesses of `X`, each multiplying its probability by `0.01`
and renormalizing: afterwards `X` holds `1/(10^10+1) < 1e-9` of the mass. -/
def trace4 : GameState := (handle_wrong_guess cat2 trace3 ("X")).2

def trace5 : GameState := (handle_wrong_guess cat2 trace4 ("X")).2

def trace6 : GameState := (handle_wrong_guess cat2 trace5 ("X")).2

def trace7 : GameState := (handle_wrong_guess cat2 trace6 ("X")).2

def trace8 : GameState := (handle_wrong_guess cat2 trace7 ("X")).2

/-- One-person catalog for the C9 counterexample. -/
def cat1 : Catalog := ⟨[("A", [("a", 1)])]⟩

/-- Four identical people for the C8 counterexample. -/
def cat4 : Catalog :=
  ⟨[("P1", [("a", 1)]), ("P2", [("a", 1)]), ("P3", [("a", 1)]), ("P4", [("a", 1)])]⟩

/-- Probability `(1 + 10⁻¹⁰)/4`, so that the subset mass `1 + 10⁻¹⁰`
falls inside the `|sum − 1| ≤ 1e-9` no-renormalization band. -/
def qC8 : ℚ := 10000000001 / 40000000000

/-- Two identical people (Scenario C shape) for the C7 witness. -/
def catC : Catalog :=
  ⟨[("W", [("c1", 1), ("c2", 0)]), ("V", [("c1", 1), ("c2", 0)])]⟩


/-- Summing a list divided elementwise by a constant. -/
lemma sum_map_div (l : List ℚ) (d : ℚ) :
    (l.map (fun p => p / d)).sum = l.sum / d := by
  induction l with
  | nil => simp
  | cons a t ih => simp [ih, add_div]

/-- An unknown attribute name makes `record_answer_and_update` return the
error result without touching the state. -/
lemma record_answer_invalid {c : Catalog} {s : GameState} {attrName : String} {ans : Int}
    (hv : attrName ∉ allAvailableAttributes c) :
    record_answer_and_update c s attrName ans = (.invalidAttribute, s) := by
  simp [record_answer_and_update, hv]

/-- Shape of `record_answer_and_update` on a recognized attribute. -/
lemma record_answer_valid {c : Catalog} {s : GameState} {attrName : String} {ans : Int}
    (hv : attrName ∈ allAvailableAttributes c) :
    record_answer_and_update c s attrName ans =
      ((if (update_probabilities c attrName ans (s.questionsAskedCount + 1)
            s.probabilities).1 then UpdateStatus.updated else UpdateStatus.contradiction),
        ⟨(update_probabilities c attrName ans (s.questionsAskedCount + 1) s.probabilities).2,
          if attrName ∈ s.asked then s.asked else s.asked ++ [attrName],
          s.questionsAskedCount + 1⟩) := by
  rw [record_answer_and_update, if_neg (by simpa using hv)]
  by_cases hb : (update_probabilities c attrName ans (s.questionsAskedCount + 1)
      s.probabilities).1 = true
  · rw [if_pos hb, if_pos hb]
  · rw [if_neg hb, if_neg hb]

/-- The success flag of `_update_probabilities` holds exactly when the
post-elimination sum is not below `1e-9`. -/
lemma update_probabilities_fst {c : Catalog} {attrName : String} {ans : Int} {n : ℕ}
    {probs : List ℚ} :
    (update_probabilities c attrName ans n probs).1 = true ↔
      ¬(apply_elimination c attrName ans n probs).sum < eps := by
  rw [update_probabilities]
  by_cases h : (apply_elimination c attrName ans n probs).sum < eps
  · simp [h]
  · simp [h]

/-- On success, `_update_probabilities` returns the renormalized
post-elimination values. -/
lemma update_probabilities_snd {c : Catalog} {attrName : String} {ans : Int} {n : ℕ}
    {probs : List ℚ} (h : ¬(apply_elimination c attrName ans n probs).sum < eps) :
    (update_probabilities c attrName ans n probs).2 =
      (apply_elimination c attrName ans n probs).map
        (fun p => p / (apply_elimination c attrName ans n probs).sum) := by
  rw [update_probabilities]
  simp [h]

/-- C1 (confirmed).  Whenever `record_answer_and_update` reports the
`"updated"` status, the probabilities of the resulting state sum to `1`
within the `1e-9` tolerance (in the exact rational model the sum is
exactly `1`). -/
theorem claim_C1_normalization (c : Catalog) (s : GameState) (attrName : String) (ans : Int)
    (h : (record_answer_and_update c s attrName ans).1 = .updated) :
    |(record_answer_and_update c s attrName ans).2.probabilities.sum - 1| ≤ eps := by
  by_cases hv : attrName ∈ allAvailableAttributes c
  · rw [record_answer_valid hv] at h ⊢
    by_cases hb : (update_probabilities c attrName ans (s.questionsAskedCount + 1)
        s.probabilities).1 = true
    · have hsum : ¬(apply_elimination c attrName ans (s.questionsAskedCount + 1)
          s.probabilities).sum < eps := update_probabilities_fst.mp hb
      have hne : (apply_elimination c attrName ans (s.questionsAskedCount + 1)
          s.probabilities).sum ≠ 0 := by
        intro h0
        exact hsum (by rw [h0]; norm_num [eps])
      simp only [update_probabilities_snd hsum, sum_map_div, div_self hne]
      norm_num [eps]
    · rw [if_neg hb] at h
      exact absurd h (by simp)
  · rw [record_answer_invalid hv] at h
    exact absurd h (by simp)

/-- Concrete input for the C1 witness. -/
theorem claim_C1_normalization_witness :
    (record_answer_and_update cat3 uniform3 ("a") 1).1 = .updated ∧
    |(record_answer_and_update cat3 uniform3 ("a") 1).2.probabilities.sum - 1| ≤ eps := by
  refine ⟨?_, claim_C1_normalization cat3 uniform3 ("a") 1 ?_⟩ <;>
    norm_num [record_answer_and_update, update_probabilities, apply_elimination, cat3,
      uniform3, allAvailableAttributes, allPersonNames, personAttrVal, lookupPerson,
      lookupAttrValue, eps, softEliminationQuestionsCount, matchMultiplierSoft,
      mismatchMultiplierSoft]

/-- C5 (confirmed).  An attribute name outside the catalog's attribute
set makes `record_answer_and_update` fail with the invalid-attribute
error, an outcome distinct from the contradiction status, and the state
is returned entirely unchanged. -/
theorem claim_C5_invalid_attribute (c : Catalog) (s : GameState) (attrName : String)
    (ans : Int) (hv : attrName ∉ allAvailableAttributes c) :
    record_answer_and_update c s attrName ans = (.invalidAttribute, s) ∧
    (UpdateStatus.invalidAttribute ≠ UpdateStatus.contradiction ∧
      UpdateStatus.invalidAttribute ≠ UpdateStatus.updated) :=
  ⟨record_answer_invalid hv, by simp, by simp⟩

/-- Concrete input for the C5 witness. -/
theorem claim_C5_invalid_attribute_witness :
    ("zz" ∉ allAvailableAttributes cat3) ∧
    record_answer_and_update cat3 uniform3 ("zz") 0 = (.invalidAttribute, uniform3) :=
  ⟨by decide, (claim_C5_invalid_attribute cat3 uniform3 ("zz") 0 (by decide)).1⟩

/-- C10 (confirmed).  Re-answering an attribute that is already in the
asked set is not rejected: the update runs through the normal path, the
question counter is incremented again while the asked set stays the same,
so the counter can exceed the number of distinct asked attributes. -/
theorem claim_C10_reask_not_rejected (c : Catalog) (s : GameState) (attrName : String)
    (ans : Int) (hv : attrName ∈ allAvailableAttributes c) (ha : attrName ∈ s.asked) :
    (record_answer_and_update c s attrName ans).1 ≠ .invalidAttribute ∧
    (record_answer_and_update c s attrName ans).2.asked = s.asked ∧
    (record_answer_and_update c s attrName ans).2.questionsAskedCount =
      s.questionsAskedCount + 1 ∧
    (record_answer_and_update c s attrName ans).2.probabilities =
      (update_probabilities c attrName ans (s.questionsAskedCount + 1) s.probabilities).2 ∧
    (s.asked.length ≤ s.questionsAskedCount →
      (record_answer_and_update c s attrName ans).2.asked.length <
        (record_answer_and_update c s attrName ans).2.questionsAskedCount) := by
  rw [record_answer_valid hv]
  refine ⟨?_, by simp [ha], rfl, rfl, ?_⟩
  · by_cases hb : (update_probabilities c attrName ans (s.questionsAskedCount + 1)
        s.probabilities).1 = true
    · rw [if_pos hb]; simp
    · rw [if_neg hb]; simp
  · intro hle
    simp only [if_pos ha]
    omega

/-- Concrete input for the C10 witness. -/
theorem claim_C10_reask_not_rejected_witness :
    ("a" ∈ allAvailableAttributes cat3) ∧ ("a" ∈ (["a"] : List String)) ∧
    ((record_answer_and_update cat3 ⟨[1/3, 1/3, 1/3], ["a"], 1⟩ ("a") 1).2.asked = ["a"] ∧
      (record_answer_and_update cat3 ⟨[1/3, 1/3, 1/3], ["a"], 1⟩ ("a") 1).2.questionsAskedCount = 2) :=
  ⟨by decide, by decide,
    (claim_C10_reask_not_rejected cat3 ⟨[1/3, 1/3, 1/3], ["a"], 1⟩ ("a") 1
      (by decide) (by decide)).2.1,
    (claim_C10_reask_not_rejected cat3 ⟨[1/3, 1/3, 1/3], ["a"], 1⟩ ("a") 1
      (by decide) (by decide)).2.2.1⟩

/-- Elementwise description of the elimination pass. -/
lemma apply_elimination_getD (c : Catalog) (attrName : String) (ans : Int) (n : ℕ)
    (probs : List ℚ) (i : ℕ) (hlen : probs.length = (allPersonNames c).length)
    (hi : i < (allPersonNames c).length) :
    (apply_elimination c attrName ans n probs).getD i 0 =
      (if probs.getD i 0 < eps then probs.getD i 0
       else if n ≤ softEliminationQuestionsCount then
         (if personAttrVal c ((allPersonNames c).getD i "") attrName = ans
           then probs.getD i 0 * matchMultiplierSoft
           else probs.getD i 0 * mismatchMultiplierSoft)
       else
         (if personAttrVal c ((allPersonNames c).getD i "") attrName = ans
           then probs.getD i 0 else 0)) := by
  have hip : i < probs.length := by omega
  have hzl : ((allPersonNames c).zip probs).length = (allPersonNames c).length := by
    rw [List.length_zip, hlen, Nat.min_self]
  have hiz : i < ((allPersonNames c).zip probs).length := by omega
  have hname : (allPersonNames c).getD i "" = (allPersonNames c)[i] :=
    List.getD_eq_getElem _ _ hi
  have hprob : probs.getD i 0 = probs[i] := List.getD_eq_getElem _ _ hip
  rw [apply_elimination]
  by_cases hn : n ≤ softEliminationQuestionsCount
  · rw [if_pos hn, if_pos hn]
    have hl : i < (((allPersonNames c).zip probs).map (fun np =>
        if np.2 < eps then np.2
        else if personAttrVal c np.1 attrName = ans then np.2 * matchMultiplierSoft
        else np.2 * mismatchMultiplierSoft)).length := by
      rw [List.length_map]; omega
    rw [List.getD_eq_getElem _ _ hl, List.getElem_map, List.getElem_zip, hname, hprob]
  · rw [if_neg hn, if_neg hn]
    have hl : i < (((allPersonNames c).zip probs).map (fun np =>
        if np.2 < eps then np.2
        else if personAttrVal c np.1 attrName ≠ ans then 0
        else np.2)).length := by
      rw [List.length_map]; omega
    rw [List.getD_eq_getElem _ _ hl, List.getElem_map, List.getElem_zip, hname, hprob]
    by_cases hpe : probs[i] < eps
    · rw [if_pos hpe, if_pos hpe]
    · rw [if_neg hpe, if_neg hpe]
      by_cases hm : personAttrVal c (allPersonNames c)[i] attrName = ans
      · rw [if_neg (by simpa using hm), if_pos hm]
      · rw [if_pos (by simpa using hm), if_neg hm]

/-- C2 (corrected).  Regime selection happens inside
`_update_probabilities` on the post-increment counter with `≤`: the
answer processed while `questionCount + 1 ≤ softEliminationThreshold`
(that is, answers 1 through the threshold — the first *3* under
defaults, not 4) gets the soft multipliers, and every later answer gets
hard elimination. -/
theorem claim_C2_regime_boundary (c : Catalog) (s : GameState) (attrName : String)
    (ans : Int) (i : ℕ) (hv : attrName ∈ allAvailableAttributes c)
    (hlen : s.probabilities.length = (allPersonNames c).length)
    (hi : i < (allPersonNames c).length)
    (hp : eps ≤ s.probabilities.getD i 0) :
    (record_answer_and_update c s attrName ans).2.questionsAskedCount =
      s.questionsAskedCount + 1 ∧
    (record_answer_and_update c s attrName ans).2.probabilities =
      (update_probabilities c attrName ans (s.questionsAskedCount + 1) s.probabilities).2 ∧
    (apply_elimination c attrName ans (s.questionsAskedCount + 1) s.probabilities).getD i 0 =
      (if s.questionsAskedCount + 1 ≤ softEliminationQuestionsCount then
        (if personAttrVal c ((allPersonNames c).getD i "") attrName = ans
          then s.probabilities.getD i 0 * matchMultiplierSoft
          else s.probabilities.getD i 0 * mismatchMultiplierSoft)
       else
        (if personAttrVal c ((allPersonNames c).getD i "") attrName = ans
          then s.probabilities.getD i 0 else 0)) := by
  refine ⟨by rw [record_answer_valid hv], by rw [record_answer_valid hv], ?_⟩
  rw [apply_elimination_getD c attrName ans _ _ i hlen hi, if_neg (not_lt.mpr hp)]

/-- Concrete input for the C2 witness: the fourth processed answer
(pre-increment count 3) falls in the hard regime. -/
theorem claim_C2_regime_boundary_witness :
    (("a" ∈ allAvailableAttributes cat3) ∧
      countThree3.probabilities.length = (allPersonNames cat3).length ∧
      1 < (allPersonNames cat3).length ∧
      eps ≤ countThree3.probabilities.getD 1 0) ∧
    (apply_elimination cat3 ("a") 1 (countThree3.questionsAskedCount + 1)
        countThree3.probabilities).getD 1 0 =
      (if countThree3.questionsAskedCount + 1 ≤ softEliminationQuestionsCount then
        (if personAttrVal cat3 ((allPersonNames cat3).getD 1 "") ("a") = 1
          then countThree3.probabilities.getD 1 0 * matchMultiplierSoft
          else countThree3.probabilities.getD 1 0 * mismatchMultiplierSoft)
       else
        (if personAttrVal cat3 ((allPersonNames cat3).getD 1 "") ("a") = 1
          then countThree3.probabilities.getD 1 0 else 0)) :=
  ⟨⟨by decide, by decide, by decide, by norm_num [countThree3, eps]⟩,
    (claim_C2_regime_boundary cat3 countThree3 ("a") 1 1 (by decide) (by decide)
      (by decide) (by norm_num [countThree3, eps])).2.2⟩

/-- C2 counterexample.  The claim's reading "the first 4 answers under
defaults are processed with soft rules" fails: the fourth answer
(pre-increment count 3) is processed with hard elimination — it zeroes
the mismatching identity `Y` — whereas soft processing of the same state
(as used for answers 1–3) would only down-weight `Y` to `1/6`. -/
theorem claim_C2_counterexample :
    countThree3.questionsAskedCount = 3 ∧
    (record_answer_and_update cat3 countThree3 ("a") 1).1 = .updated ∧
    (record_answer_and_update cat3 countThree3 ("a") 1).2.probabilities = [1/2, 0, 1/2] ∧
    (update_probabilities cat3 ("a") 1 1 countThree3.probabilities).2 = [5/12, 1/6, 5/12] ∧
    (record_answer_and_update cat3 countThree3 ("a") 1).2.probabilities ≠
      (update_probabilities cat3 ("a") 1 1 countThree3.probabilities).2 := by
  norm_num [record_answer_and_update, update_probabilities, apply_elimination, cat3,
    countThree3, allAvailableAttributes, allPersonNames, personAttrVal, lookupPerson,
    lookupAttrValue, eps, softEliminationQuestionsCount, matchMultiplierSoft,
    mismatchMultiplierSoft]

/-- C3 counterexample.  The soft update on the Scenario B catalog
succeeds but yields `X = Z = 5/12 ≈ 0.4167` and `Y = 1/6 ≈ 0.1667`, not
the claimed `0.4545` and `0.0909` (the spec's expected values correspond
to no run of the code: the unnormalized masses are `1/3, 0.4/3, 1/3`,
whose normalization is `5/12, 1/6, 5/12`). -/
theorem claim_C3_counterexample :
    (record_answer_and_update cat3 uniform3 ("a") 1).1 = .updated ∧
    ¬(|(record_answer_and_update cat3 uniform3 ("a") 1).2.probabilities.getD 0 0 -
        4545/10000| ≤ eps) ∧
    ¬(|(record_answer_and_update cat3 uniform3 ("a") 1).2.probabilities.getD 1 0 -
        909/10000| ≤ eps) := by
  norm_num [record_answer_and_update, update_probabilities, apply_elimination, cat3,
    uniform3, allAvailableAttributes, allPersonNames, personAttrVal, lookupPerson,
    lookupAttrValue, eps, softEliminationQuestionsCount, matchMultiplierSoft,
    mismatchMultiplierSoft]
  constructor <;> rw [abs_of_pos (by norm_num)] <;> norm_num

/-- C3 (corrected).  The soft-regime update on the Scenario B catalog
with default multipliers succeeds and yields exactly
`X = Z = 5/12` and `Y = 1/6`. -/
theorem claim_C3_soft_scenario :
    (record_answer_and_update cat3 uniform3 ("a") 1).1 = .updated ∧
    (record_answer_and_update cat3 uniform3 ("a") 1).2.probabilities = [5/12, 1/6, 5/12] := by
  norm_num [record_answer_and_update, update_probabilities, apply_elimination, cat3,
    uniform3, allAvailableAttributes, allPersonNames, personAttrVal, lookupPerson,
    lookupAttrValue, eps, softEliminationQuestionsCount, matchMultiplierSoft,
    mismatchMultiplierSoft]

/-- C4 (corrected).  In the hard regime, a successful
`record_answer_and_update` zeroes every identity whose attribute value
differs from the answer *provided its pre-update probability is at least
`1e-9`* — the hard loop deliberately skips identities already below the
activity threshold, so those may keep a tiny nonzero probability. -/
theorem claim_C4_hard_elimination (c : Catalog) (s : GameState) (attrName : String)
    (ans : Int) (i : ℕ) (hv : attrName ∈ allAvailableAttributes c)
    (hlen : s.probabilities.length = (allPersonNames c).length)
    (hhard : softEliminationQuestionsCount < s.questionsAskedCount + 1)
    (hst : (record_answer_and_update c s attrName ans).1 = .updated)
    (hi : i < (allPersonNames c).length)
    (hp : eps ≤ s.probabilities.getD i 0)
    (hmm : personAttrVal c ((allPersonNames c).getD i "") attrName ≠ ans) :
    (record_answer_and_update c s attrName ans).2.probabilities.getD i 0 = 0 := by
  rw [record_answer_valid hv] at hst ⊢
  by_cases hb : (update_probabilities c attrName ans (s.questionsAskedCount + 1)
      s.probabilities).1 = true
  · have hsum : ¬(apply_elimination c attrName ans (s.questionsAskedCount + 1)
        s.probabilities).sum < eps := update_probabilities_fst.mp hb
    have hui : (apply_elimination c attrName ans (s.questionsAskedCount + 1)
        s.probabilities).getD i 0 = 0 := by
      rw [apply_elimination_getD c attrName ans _ _ i hlen hi, if_neg (not_lt.mpr hp),
        if_neg (by omega), if_neg hmm]
    have hul : i < (apply_elimination c attrName ans (s.questionsAskedCount + 1)
        s.probabilities).length := by
      rw [apply_elimination]
      by_cases hn : s.questionsAskedCount + 1 ≤ softEliminationQuestionsCount
      · rw [if_pos hn, List.length_map, List.length_zip, hlen, Nat.min_self]; omega
      · rw [if_neg hn, List.length_map, List.length_zip, hlen, Nat.min_self]; omega
    simp only [update_probabilities_snd hsum]
    have hml : i < ((apply_elimination c attrName ans (s.questionsAskedCount + 1)
        s.probabilities).map (fun p => p / (apply_elimination c attrName ans
          (s.questionsAskedCount + 1) s.probabilities).sum)).length := by
      rw [List.length_map]; omega
    rw [List.getD_eq_getElem _ _ hml, List.getElem_map,
      ← List.getD_eq_getElem _ (0 : ℚ) hul, hui, zero_div]
  · rw [if_neg hb] at hst
    exact absurd hst (by simp)

/-- Concrete input for the C4 witness: the fourth answer `b = 1` on the
two-person catalog zeroes `X` (whose `b` value is `0`). -/
theorem claim_C4_hard_elimination_witness :
    (("b" ∈ allAvailableAttributes cat2) ∧
      softEliminationQuestionsCount < (3 : ℕ) + 1 ∧
      (record_answer_and_update cat2 ⟨[1/2, 1/2], [], 3⟩ ("b") 1).1 = .updated ∧
      eps ≤ (1/2 : ℚ) ∧
      personAttrVal cat2 ((allPersonNames cat2).getD 0 "") ("b") ≠ 1) ∧
    (record_answer_and_update cat2 ⟨[1/2, 1/2], [], 3⟩ ("b") 1).2.probabilities.getD 0 0 = 0 := by
  have hst : (record_answer_and_update cat2 ⟨[1/2, 1/2], [], 3⟩ ("b") 1).1 = .updated := by
    norm_num +decide [record_answer_and_update, update_probabilities, apply_elimination, cat2,
      allAvailableAttributes, allPersonNames, personAttrVal, lookupPerson, lookupAttrValue,
      eps, softEliminationQuestionsCount]
  refine ⟨⟨by decide, by decide, hst, by norm_num [eps], by decide⟩,
    claim_C4_hard_elimination cat2 ⟨[1/2, 1/2], [], 3⟩ ("b") 1 0 (by decide) (by decide)
      (by decide) hst (by decide) (by norm_num [eps]) (by decide)⟩

/-- C4 counterexample.  A reachable state (three matching soft answers,
then five wrong guesses of `X`) leaves `X` with probability
`1/(10^10+1) < 1e-9`; the next hard-regime update on `b = 1` succeeds,
`X`'s value for `b` differs from the answer, yet `X`'s probability stays
`1/(10^10+1) ≠ 0` because the hard loop skips sub-threshold identities. -/
theorem claim_C4_counterexample :
    Reachable cat2 trace8 ∧
    softEliminationQuestionsCount < trace8.questionsAskedCount + 1 ∧
    (record_answer_and_update cat2 trace8 ("b") 1).1 = .updated ∧
    (allPersonNames cat2).getD 0 "" = "X" ∧
    personAttrVal cat2 ("X") ("b") ≠ 1 ∧
    (record_answer_and_update cat2 trace8 ("b") 1).2.probabilities.getD 0 0 ≠ 0 := by
  refine ⟨?_, ?_, ?_, by decide, by decide, ?_⟩
  · exact .stepWrongGuess ("X") (.stepWrongGuess ("X") (.stepWrongGuess ("X")
      (.stepWrongGuess ("X") (.stepWrongGuess ("X") (.stepAnswer ("a") 1
        (.stepAnswer ("a") 1 (.stepAnswer ("a") 1 .init)))))))
  · norm_num +decide [trace8, trace7, trace6, trace5, trace4, trace3, trace2, trace1,
      trace0, reset_game_state, record_answer_and_update, update_probabilities,
      apply_elimination, handle_wrong_guess, cat2, allAvailableAttributes, allPersonNames,
      personAttrVal, lookupPerson, lookupAttrValue, eps, softEliminationQuestionsCount,
      matchMultiplierSoft]
  · norm_num +decide [trace8, trace7, trace6, trace5, trace4, trace3, trace2, trace1,
      trace0, reset_game_state, record_answer_and_update, update_probabilities,
      apply_elimination, handle_wrong_guess, cat2, allAvailableAttributes, allPersonNames,
      personAttrVal, lookupPerson, lookupAttrValue, eps, softEliminationQuestionsCount,
      matchMultiplierSoft]
  · norm_num +decide [trace8, trace7, trace6, trace5, trace4, trace3, trace2, trace1,
      trace0, reset_game_state, record_answer_and_update, update_probabilities,
      apply_elimination, handle_wrong_guess, cat2, allAvailableAttributes, allPersonNames,
      personAttrVal, lookupPerson, lookupAttrValue, eps, softEliminationQuestionsCount,
      matchMultiplierSoft]

/-- The running-maximum fold underlying `argmaxFirst` returns an element
of the list that dominates every candidate it has seen. -/
lemma argmax_foldl_spec (l : List (String × ℚ)) (x : String × ℚ) :
    l.foldl (fun acc y => if acc.2 < y.2 then y else acc) x ∈ x :: l ∧
    x.2 ≤ (l.foldl (fun acc y => if acc.2 < y.2 then y else acc) x).2 ∧
    ∀ y ∈ l, y.2 ≤ (l.foldl (fun acc y => if acc.2 < y.2 then y else acc) x).2 := by
  induction l generalizing x with
  | nil => simp
  | cons a t ih =>
    simp only [List.foldl_cons]
    by_cases h : x.2 < a.2
    · rw [if_pos h]
      obtain ⟨hmem, hle, hall⟩ := ih a
      refine ⟨?_, le_trans (le_of_lt h) hle, ?_⟩
      · rcases List.mem_cons.mp hmem with h1 | h1
        · simp [h1]
        · simp [List.mem_cons, Or.inr (Or.inr h1)]
      · intro y hy
        rcases List.mem_cons.mp hy with h1 | h1
        · subst h1; exact hle
        · exact hall y h1
    · rw [if_neg h]
      obtain ⟨hmem, hle, hall⟩ := ih x
      refine ⟨?_, hle, ?_⟩
      · rcases List.mem_cons.mp hmem with h1 | h1
        · simp [h1]
        · simp [List.mem_cons, Or.inr (Or.inr h1)]
      · intro y hy
        rcases List.mem_cons.mp hy with h1 | h1
        · subst h1; exact le_trans (not_lt.mp h) hle
        · exact hall y h1

/-- `argmaxFirst` on a non-empty list returns a maximal element of it. -/
lemma argmaxFirst_spec {l : List (String × ℚ)} (h : l ≠ []) :
    ∃ best, argmaxFirst l = some best ∧ best ∈ l ∧ ∀ y ∈ l, y.2 ≤ best.2 := by
  match l, h with
  | x :: xs, _ =>
    obtain ⟨hmem, hle, hall⟩ := argmax_foldl_spec xs x
    refine ⟨_, rfl, hmem, ?_⟩
    intro y hy
    rcases List.mem_cons.mp hy with h1 | h1
    · subst h1; exact hle
    · exact hall y h1

/-- `_get_current_guess_info` reports the arg-max of the active set. -/
lemma get_current_guess_info_of_active {c : Catalog} {s : GameState}
    (hne : s.probabilities ≠ []) {best : String × ℚ}
    (hb : argmaxFirst (((allPersonNames c).zip s.probabilities).filter
      (fun np => decide (eps < np.2))) = some best) :
    get_current_guess_info c s = (some best.1, best.2) := by
  rw [get_current_guess_info, if_neg hne]
  simp only [hb]

/-- Emptiness of the two "active" filters coincides when the probability
list is parallel to the name list. -/
lemma active_filter_nil_iff {c : Catalog} {s : GameState}
    (hlen : s.probabilities.length = (allPersonNames c).length) :
    ((((allPersonNames c).zip s.probabilities).filter
        (fun np => decide (eps < np.2))) = []) ↔
      (s.probabilities.filter (fun p => decide (eps < p)) = []) := by
  constructor
  · intro h
    rw [List.filter_eq_nil_iff] at h ⊢
    intro p hp
    obtain ⟨i, hi, hpe⟩ := List.mem_iff_getElem.mp hp
    have hiz : i < ((allPersonNames c).zip s.probabilities).length := by
      rw [List.length_zip, hlen, Nat.min_self]; omega
    have hval := h _ (List.getElem_mem hiz)
    rw [List.getElem_zip] at hval
    subst hpe
    simpa using hval
  · intro h
    rw [List.filter_eq_nil_iff] at h ⊢
    intro np hnp
    have h2 := (List.of_mem_zip hnp).2
    simpa using h _ h2

/-- C6 (confirmed).  Once the question floor is met, if the best active
probability reaches the certainty threshold (boundary inclusive) or
exactly one candidate above `1e-9` remains with probability above
`0.01`, then `get_guess_if_ready` returns a guess naming the (first)
arg-max identity, with confidence forced to exactly `1` when a single
candidate remains and the arg-max probability otherwise. -/
theorem claim_C6_guess_policy (c : Catalog) (s : GameState)
    (hlen : s.probabilities.length = (allPersonNames c).length)
    (hq : minQuestionsBeforeConfidentGuess ≤ s.questionsAskedCount)
    (hcond : certaintyThreshold ≤ (get_current_guess_info c s).2 ∨
      ((s.probabilities.filter (fun p => decide (eps < p))).length = 1 ∧
        1/100 < (get_current_guess_info c s).2)) :
    ∃ best : String × ℚ,
      best ∈ ((allPersonNames c).zip s.probabilities).filter
        (fun np => decide (eps < np.2)) ∧
      (∀ y ∈ ((allPersonNames c).zip s.probabilities).filter
        (fun np => decide (eps < np.2)), y.2 ≤ best.2) ∧
      get_current_guess_info c s = (some best.1, best.2) ∧
      get_guess_if_ready c s = .confident (some best.1)
        (if (s.probabilities.filter (fun p => decide (eps < p))).length = 1
          then 1 else best.2) := by
  have hremne : (s.probabilities.filter (fun p => decide (eps < p))).length ≠ 0 := by
    intro h0
    have hfil : s.probabilities.filter (fun p => decide (eps < p)) = [] :=
      List.length_eq_zero.mp h0
    have hact : (((allPersonNames c).zip s.probabilities).filter
        (fun np => decide (eps < np.2))) = [] := (active_filter_nil_iff hlen).mpr hfil
    have hinfo : get_current_guess_info c s = (none, 0) := by
      rw [get_current_guess_info]
      by_cases hpe : s.probabilities = []
      · rw [if_pos hpe]
      · rw [if_neg hpe]
        simp only [hact, argmaxFirst]
    rcases hcond with hc | hc
    · rw [hinfo] at hc; norm_num [certaintyThreshold] at hc
    · omega
  have hactne : (((allPersonNames c).zip s.probabilities).filter
      (fun np => decide (eps < np.2))) ≠ [] := by
    intro hact
    exact hremne (by rw [List.length_eq_zero]; exact (active_filter_nil_iff hlen).mp hact)
  obtain ⟨best, hb, hbm, hball⟩ := argmaxFirst_spec hactne
  have hpne : s.probabilities ≠ [] := by
    intro hnil
    apply hremne
    rw [hnil]
    simp
  have hinfo := get_current_guess_info_of_active (c := c) hpne hb
  refine ⟨best, hbm, hball, hinfo, ?_⟩
  simp only [get_guess_if_ready]
  rw [if_neg (by intro hcc; exact hremne hcc.1)]
  rw [if_pos ⟨hq, hcond⟩, hinfo]
  rcases Nat.lt_or_ge 1 ((s.probabilities.filter (fun p => decide (eps < p))).length)
    with h1 | h1
  · rw [if_pos h1, if_neg (by omega)]
  · have h2 : (s.probabilities.filter (fun p => decide (eps < p))).length = 1 := by omega
    rw [h2]
    norm_num

/-- Concrete input for the C6 witness: probabilities `[0.85, 0.15]` at
question count 5 sit exactly on the inclusive certainty boundary. -/
theorem claim_C6_guess_policy_witness :
    ((⟨[85/100, 15/100], [], 5⟩ : GameState).probabilities.length =
        (allPersonNames cat2).length ∧
      certaintyThreshold ≤ (get_current_guess_info cat2 ⟨[85/100, 15/100], [], 5⟩).2) ∧
    ∃ best : String × ℚ,
      best ∈ ((allPersonNames cat2).zip (⟨[85/100, 15/100], [], 5⟩ : GameState).probabilities).filter
        (fun np => decide (eps < np.2)) ∧
      (∀ y ∈ ((allPersonNames cat2).zip
          (⟨[85/100, 15/100], [], 5⟩ : GameState).probabilities).filter
        (fun np => decide (eps < np.2)), y.2 ≤ best.2) ∧
      get_current_guess_info cat2 ⟨[85/100, 15/100], [], 5⟩ = (some best.1, best.2) ∧
      get_guess_if_ready cat2 ⟨[85/100, 15/100], [], 5⟩ = .confident (some best.1)
        (if ((⟨[85/100, 15/100], [], 5⟩ : GameState).probabilities.filter
            (fun p => decide (eps < p))).length = 1 then 1 else best.2) := by
  have hcert : certaintyThreshold ≤ (get_current_guess_info cat2 ⟨[85/100, 15/100], [], 5⟩).2 := by
    norm_num +decide [get_current_guess_info, argmaxFirst, cat2, allPersonNames, eps,
      certaintyThreshold]
  exact ⟨⟨by decide, hcert⟩,
    claim_C6_guess_policy cat2 ⟨[85/100, 15/100], [], 5⟩ (by decide) (by decide)
      (Or.inl hcert)⟩

/-- Summing a list after replacing one entry. -/
lemma sum_set_rat (l : List ℚ) (i : ℕ) (x : ℚ) (hi : i < l.length) :
    (l.set i x).sum = l.sum - l.getD i 0 + x := by
  induction l generalizing i with
  | nil => simp at hi
  | cons a t ih =>
    cases i with
    | zero => simp; ring
    | succ n =>
      have hn : n < t.length := by simpa using hi
      simp only [List.set, List.sum_cons, List.getD_cons_succ, ih n hn]
      ring

/-- The penalty pass of `handle_wrong_guess` over the zipped name/probability
list is exactly a single-entry update when names are distinct. -/
lemma penalize_map_eq_set (c : Catalog) (probs : List ℚ) (i : ℕ)
    (hnd : (allPersonNames c).Nodup) (hlen : probs.length = (allPersonNames c).length)
    (hi : i < (allPersonNames c).length) :
    ((allPersonNames c).zip probs).map
        (fun np => if np.1 = (allPersonNames c).getD i "" then np.2 * (1/100) else np.2) =
      probs.set i (probs.getD i 0 * (1/100)) := by
  have hip : i < probs.length := by omega
  apply List.ext_getElem
  · rw [List.length_map, List.length_zip, hlen, Nat.min_self, List.length_set]
    omega
  · intro j h1 h2
    have hjn : j < (allPersonNames c).length := by
      rw [List.length_map, List.length_zip, hlen, Nat.min_self] at h1
      exact h1
    have hjp : j < probs.length := by omega
    have hjz : j < ((allPersonNames c).zip probs).length := by
      rw [List.length_zip, hlen, Nat.min_self]
      exact hjn
    simp only [List.getElem_map, List.getElem_zip, List.getElem_set,
      List.getD_eq_getElem _ _ hi, List.getD_eq_getElem _ _ hip]
    by_cases hij : i = j
    · subst hij
      simp
    · rw [if_neg (fun hcc => hij ((hnd.getElem_inj_iff).mp hcc).symm), if_neg hij]

/-- Effect of one recognized `handle_wrong_guess` call when the penalized
identity holds positive probability, the rest of the list holds positive
mass, and the penalized total stays above `1e-9`: recognition, an exactly
normalized sum, and a strictly smaller relative share. -/
lemma handle_wrong_guess_step (c : Catalog) (s : GameState) (i : ℕ)
    (hnd : (allPersonNames c).Nodup)
    (hlen : s.probabilities.length = (allPersonNames c).length)
    (hi : i < (allPersonNames c).length)
    (hne : (allPersonNames c).getD i "" ≠ "")
    (hp : 0 < s.probabilities.getD i 0)
    (hR : 0 < s.probabilities.sum - s.probabilities.getD i 0)
    (hS : eps < s.probabilities.sum - s.probabilities.getD i 0 * (99/100)) :
    (handle_wrong_guess c s ((allPersonNames c).getD i "")).1 = true ∧
    (handle_wrong_guess c s ((allPersonNames c).getD i "")).2.probabilities.length =
      s.probabilities.length ∧
    (handle_wrong_guess c s ((allPersonNames c).getD i "")).2.probabilities.sum = 1 ∧
    (handle_wrong_guess c s ((allPersonNames c).getD i "")).2.probabilities.getD i 0 =
      s.probabilities.getD i 0 * (1/100) /
        (s.probabilities.sum - s.probabilities.getD i 0 * (99/100)) ∧
    relShare (handle_wrong_guess c s ((allPersonNames c).getD i "")).2.probabilities i <
      relShare s.probabilities i := by
  have hip : i < s.probabilities.length := by omega
  have hmem : (allPersonNames c).getD i "" ∈ allPersonNames c := by
    rw [List.getD_eq_getElem _ _ hi]
    exact List.getElem_mem hi
  have hS1pos : (0 : ℚ) < s.probabilities.sum - s.probabilities.getD i 0 * (99/100) :=
    lt_trans (by norm_num [eps]) hS
  have hS0pos : (0 : ℚ) < s.probabilities.sum := by
    have := hR
    have := hp
    linarith
  have husum : (s.probabilities.set i (s.probabilities.getD i 0 * (1/100))).sum =
      s.probabilities.sum - s.probabilities.getD i 0 * (99/100) := by
    rw [sum_set_rat _ _ _ hip]
    ring
  have hval : handle_wrong_guess c s ((allPersonNames c).getD i "") =
      (true, { s with probabilities :=
        ((s.probabilities.set i (s.probabilities.getD i 0 * (1/100))).map (fun p =>
          p / (s.probabilities.sum - s.probabilities.getD i 0 * (99/100)))) }) := by
    simp only [handle_wrong_guess]
    rw [if_pos ⟨hne, hmem⟩, penalize_map_eq_set c s.probabilities i hnd hlen hi, husum,
      if_pos hS]
  rw [hval]
  have hlenr : ((s.probabilities.set i (s.probabilities.getD i 0 * (1/100))).map
      (fun p => p / (s.probabilities.sum - s.probabilities.getD i 0 * (99/100)))).length =
      s.probabilities.length := by
    rw [List.length_map, List.length_set]
  have hsumr : ((s.probabilities.set i (s.probabilities.getD i 0 * (1/100))).map
      (fun p => p / (s.probabilities.sum - s.probabilities.getD i 0 * (99/100)))).sum = 1 := by
    rw [sum_map_div, husum, div_self (ne_of_gt hS1pos)]
  have hgetr : ((s.probabilities.set i (s.probabilities.getD i 0 * (1/100))).map
      (fun p => p / (s.probabilities.sum - s.probabilities.getD i 0 * (99/100)))).getD i 0 =
      s.probabilities.getD i 0 * (1/100) /
        (s.probabilities.sum - s.probabilities.getD i 0 * (99/100)) := by
    have hil : i < ((s.probabilities.set i (s.probabilities.getD i 0 * (1/100))).map
        (fun p => p / (s.probabilities.sum - s.probabilities.getD i 0 * (99/100)))).length := by
      rw [hlenr]; omega
    have hisl : i < (s.probabilities.set i (s.probabilities.getD i 0 * (1/100))).length := by
      rw [List.length_set]; omega
    rw [List.getD_eq_getElem _ _ hil, List.getElem_map, List.getElem_set, if_pos rfl]
  refine ⟨rfl, hlenr, hsumr, hgetr, ?_⟩
  rw [relShare, relShare, hsumr, hgetr, div_one]
  rw [div_lt_div_iff₀ hS1pos hS0pos]
  nlinarith [mul_pos hp hR]

/-- C9 (corrected).  When the penalized identity holds positive
probability, the rest of the distribution holds mass above `1e-9`, two
consecutive `handle_wrong_guess` calls on it are both recognized, leave
the distribution summing to exactly `1`, and strictly decrease the
identity's relative share each time.  (Degenerate states — a zero-probability
target, a single-identity distribution, or an all-but-vanished total —
violate the original unconditional claim.) -/
theorem claim_C9_penalize (c : Catalog) (s : GameState) (i : ℕ)
    (hnd : (allPersonNames c).Nodup)
    (hlen : s.probabilities.length = (allPersonNames c).length)
    (hi : i < (allPersonNames c).length)
    (hne : (allPersonNames c).getD i "" ≠ "")
    (hp : 0 < s.probabilities.getD i 0)
    (hR : eps < s.probabilities.sum - s.probabilities.getD i 0) :
    (handle_wrong_guess c s ((allPersonNames c).getD i "")).1 = true ∧
    (handle_wrong_guess c s ((allPersonNames c).getD i "")).2.probabilities.sum = 1 ∧
    (handle_wrong_guess c ((handle_wrong_guess c s ((allPersonNames c).getD i "")).2)
        ((allPersonNames c).getD i "")).1 = true ∧
    (handle_wrong_guess c ((handle_wrong_guess c s ((allPersonNames c).getD i "")).2)
        ((allPersonNames c).getD i "")).2.probabilities.sum = 1 ∧
    relShare (handle_wrong_guess c s ((allPersonNames c).getD i "")).2.probabilities i <
      relShare s.probabilities i ∧
    relShare (handle_wrong_guess c ((handle_wrong_guess c s ((allPersonNames c).getD i "")).2)
        ((allPersonNames c).getD i "")).2.probabilities i <
      relShare (handle_wrong_guess c s ((allPersonNames c).getD i "")).2.probabilities i := by
  have hepspos : (0 : ℚ) < eps := by norm_num [eps]
  have hR0 : 0 < s.probabilities.sum - s.probabilities.getD i 0 := lt_trans hepspos hR
  have hS : eps < s.probabilities.sum - s.probabilities.getD i 0 * (99/100) := by
    nlinarith
  obtain ⟨h1t, h1len, h1sum, h1get, h1lt⟩ :=
    handle_wrong_guess_step c s i hnd hlen hi hne hp hR0 hS
  have hS1pos : (0 : ℚ) < s.probabilities.sum - s.probabilities.getD i 0 * (99/100) :=
    lt_trans hepspos hS
  have hlen1 : (handle_wrong_guess c s ((allPersonNames c).getD i "")).2.probabilities.length =
      (allPersonNames c).length := by rw [h1len, hlen]
  have hp1 : 0 < (handle_wrong_guess c s
      ((allPersonNames c).getD i "")).2.probabilities.getD i 0 := by
    rw [h1get]
    positivity
  have hp1lt : (handle_wrong_guess c s
      ((allPersonNames c).getD i "")).2.probabilities.getD i 0 < 1 := by
    rw [h1get, div_lt_one hS1pos]
    nlinarith
  have hR1 : 0 < (handle_wrong_guess c s ((allPersonNames c).getD i "")).2.probabilities.sum -
      (handle_wrong_guess c s ((allPersonNames c).getD i "")).2.probabilities.getD i 0 := by
    rw [h1sum]
    linarith
  have hS1 : eps < (handle_wrong_guess c s ((allPersonNames c).getD i "")).2.probabilities.sum -
      (handle_wrong_guess c s ((allPersonNames c).getD i "")).2.probabilities.getD i 0 *
        (99/100) := by
    rw [h1sum]
    have h100 : (eps : ℚ) < 1/100 := by norm_num [eps]
    linarith
  obtain ⟨h2t, _, h2sum, _, h2lt⟩ :=
    handle_wrong_guess_step c _ i hnd hlen1 hi hne hp1 hR1 hS1
  exact ⟨h1t, h1sum, h2t, h2sum, h1lt, h2lt⟩

/-- Concrete input for the C9 witness. -/
theorem claim_C9_penalize_witness :
    ((allPersonNames cat2).Nodup ∧
      (⟨[1/2, 1/2], [], 0⟩ : GameState).probabilities.length = (allPersonNames cat2).length ∧
      (allPersonNames cat2).getD 0 "" ≠ "" ∧
      0 < (⟨[1/2, 1/2], [], 0⟩ : GameState).probabilities.getD 0 0 ∧
      eps < (⟨[1/2, 1/2], [], 0⟩ : GameState).probabilities.sum -
        (⟨[1/2, 1/2], [], 0⟩ : GameState).probabilities.getD 0 0) ∧
    (relShare (handle_wrong_guess cat2 ⟨[1/2, 1/2], [], 0⟩
        ((allPersonNames cat2).getD 0 "")).2.probabilities 0 <
      relShare (⟨[1/2, 1/2], [], 0⟩ : GameState).probabilities 0) :=
  ⟨⟨by decide, by decide, by decide, by norm_num, by norm_num [eps]⟩,
    (claim_C9_penalize cat2 ⟨[1/2, 1/2], [], 0⟩ 0 (by decide) (by decide) (by decide)
      (by decide) (by norm_num) (by norm_num [eps])).2.2.2.2.1⟩

/-- C9 counterexample.  On a single-identity distribution the penalty is
recognized and the distribution renormalizes right back to `[1]`: the
identity's relative share does not strictly decrease, refuting the
unconditional claim. -/
theorem claim_C9_counterexample :
    (handle_wrong_guess cat1 ⟨[1], [], 0⟩ ("A")).1 = true ∧
    (handle_wrong_guess cat1 ⟨[1], [], 0⟩ ("A")).2.probabilities = [1] ∧
    ¬(relShare (handle_wrong_guess cat1 ⟨[1], [], 0⟩ ("A")).2.probabilities 0 <
        relShare (⟨[1], [], 0⟩ : GameState).probabilities 0) := by
  norm_num +decide [handle_wrong_guess, relShare, cat1, allPersonNames, eps]

/-- Positivity of the rational epsilon. -/
lemma eps_pos : (0 : ℚ) < eps := by norm_num [eps]

/-- A non-empty list of values above `eps` sums above `eps`. -/
lemma eps_lt_sum (l : List ℚ) (hne : l ≠ []) (hpos : ∀ p ∈ l, eps < p) :
    eps < l.sum := by
  match l, hne with
  | a :: t, _ =>
    have ha := hpos a (List.mem_cons_self _ _)
    have ht : 0 ≤ t.sum :=
      List.sum_nonneg (fun p hp =>
        le_of_lt (lt_trans eps_pos (hpos p (List.mem_cons_of_mem _ hp))))
    simp only [List.sum_cons]
    linarith

/-- The epsilon filter is the identity on lists of values above `eps`. -/
lemma filter_eps_eq_self {l : List ℚ} (hpos : ∀ p ∈ l, eps < p) :
    l.filter (fun p => decide (eps < p)) = l :=
  List.filter_eq_self.mpr (fun a ha => by simpa using hpos a ha)

/-- Entropy of the empty value list is zero. -/
lemma calculate_entropy_nil : calculate_entropy [] = 0 := by
  simp [calculate_entropy]

/-- On values above `eps` whose sum is within `1e-9` of `1`, the entropy
skips renormalization. -/
lemma calculate_entropy_noRenorm (l : List ℚ) (hne : l ≠ []) (hpos : ∀ p ∈ l, eps < p)
    (habs : ¬eps < |l.sum - 1|) :
    calculate_entropy l = -((l.map realTerm).sum) := by
  simp only [calculate_entropy, filter_eps_eq_self hpos]
  rw [if_neg hne, if_neg hne, if_neg (fun hcc => habs hcc.1), filter_eps_eq_self hpos]

/-- On values above `eps` with sum at most `1` but away from `1`, the
entropy renormalizes by the sum. -/
lemma calculate_entropy_renorm (l : List ℚ) (hne : l ≠ []) (hpos : ∀ p ∈ l, eps < p)
    (habs : eps < |l.sum - 1|) (hle : l.sum ≤ 1) :
    calculate_entropy l = -(((l.map (fun p => p / l.sum)).map realTerm).sum) := by
  have hsum_eps : eps < l.sum := eps_lt_sum l hne hpos
  have h0 : (0 : ℚ) < l.sum := lt_trans eps_pos hsum_eps
  have hpos2 : ∀ q ∈ l.map (fun p => p / l.sum), eps < q := by
    intro q hq
    obtain ⟨p, hp, rfl⟩ := List.mem_map.mp hq
    have hpe := hpos p hp
    have hp0 : 0 < p := lt_trans eps_pos hpe
    calc eps < p := hpe
    _ ≤ p / l.sum := by
      rw [le_div_iff₀ h0]
      nlinarith
  simp only [calculate_entropy, filter_eps_eq_self hpos]
  rw [if_neg hne, if_neg hne, if_pos ⟨habs, hsum_eps⟩, filter_eps_eq_self hpos2]

/-- Scaling every member of a positive list multiplies its entropy terms
and adds the logarithm of the scale, weighted by the mass. -/
lemma sum_realTerm_mul (l : List ℚ) (hpos : ∀ p ∈ l, 0 < p) (cc : ℚ) (hc : 0 < cc) :
    ((l.map (fun p => p * cc)).map realTerm).sum =
      ((cc : ℚ) : ℝ) * ((l.map realTerm).sum) +
        ((cc : ℚ) : ℝ) * Real.logb 2 ((cc : ℚ) : ℝ) *
          ((l.map (fun p => ((p : ℚ) : ℝ))).sum) := by
  induction l with
  | nil => simp
  | cons a t ih =>
    have hpt : ∀ p ∈ t, 0 < p := fun p hp => hpos p (List.mem_cons_of_mem _ hp)
    have ha : 0 < a := hpos a (List.mem_cons_self _ _)
    have ha' : ((a : ℚ) : ℝ) ≠ 0 := by positivity
    have hc' : ((cc : ℚ) : ℝ) ≠ 0 := by positivity
    simp only [List.map_cons, List.sum_cons, ih hpt, realTerm]
    push_cast
    rw [Real.logb_mul ha' hc']
    ring

/-- Casting a rational list sum to the reals. -/
lemma sum_map_ratCast (l : List ℚ) :
    (l.map (fun p => ((p : ℚ) : ℝ))).sum = ((l.sum : ℚ) : ℝ) := by
  induction l with
  | nil => simp
  | cons a t ih =>
    simp only [List.map_cons, List.sum_cons, ih]
    push_cast
    ring

/-- Splitting a mapped sum over a boolean filter partition. -/
lemma sum_map_filter_split {α M : Type*} [AddCommMonoid M] (l : List α) (p : α → Bool)
    (f : α → M) :
    ((l.filter p).map f).sum + ((l.filter (fun x => !p x)).map f).sum = (l.map f).sum := by
  induction l with
  | nil => simp
  | cons a t ih =>
    by_cases h : p a
    · rw [List.filter_cons_of_pos h, List.filter_cons_of_neg (by simp [h])]
      simp only [List.map_cons, List.sum_cons]
      rw [← ih]
      abel
    · rw [List.filter_cons_of_neg h, List.filter_cons_of_pos (by simp [h])]
      simp only [List.map_cons, List.sum_cons]
      rw [← ih]
      abel

/-- Members of `subset_probs_dict` carry their subset name and a
probability above `1e-9`. -/
lemma subsetProbsDict_mem {c : Catalog} {s : GameState} {subset : List String}
    {np : String × ℚ} (h : np ∈ subsetProbsDict c s subset) :
    np.1 ∈ subset ∧ eps < np.2 := by
  obtain ⟨name, hname, hf⟩ := List.mem_filterMap.mp h
  rcases hlk : lookupPair ((allPersonNames c).zip s.probabilities) name with _ | p
  · simp only [hlk] at hf
    exact Option.noConfusion hf
  · simp only [hlk] at hf
    by_cases hpe : eps < p
    · rw [if_pos hpe] at hf
      have hnp : (name, p) = np := Option.some_inj.mp hf
      rw [← hnp]
      exact ⟨hname, hpe⟩
    · rw [if_neg hpe] at hf
      exact absurd hf (by simp)

/-- Contribution of one answer group to the subset's entropy sum: with
every group value above `1e-9`, the group mass bounded by the (at most 1)
subset mass, and the group mass either exactly `1` or farther than `1e-9`
from `1` (so that `_calculate_entropy` renormalizes exactly or not at
all), the group's share of the subset entropy decomposes into its
weighted internal entropy plus a log term of its weight. -/
lemma group_contribution (G : List ℚ) (S : ℚ) (hpos : ∀ p ∈ G, eps < p)
    (hSpos : 0 < S) (hwle : G.sum ≤ S) (hS1 : S ≤ 1)
    (hw : G.sum = 1 ∨ eps < |G.sum - 1|) :
    (G.map (fun p => realTerm (p / S))).sum =
      ((G.sum / S : ℚ) : ℝ) * (-(calculate_entropy G)) +
        ((G.sum / S : ℚ) : ℝ) * Real.logb 2 ((G.sum / S : ℚ) : ℝ) := by
  rcases eq_or_ne G [] with rfl | hne
  · simp [calculate_entropy]
  · have hwpos : eps < G.sum := eps_lt_sum G hne hpos
    have hw0 : (0 : ℚ) < G.sum := lt_trans eps_pos hwpos
    have hw1 : G.sum ≤ 1 := le_trans hwle hS1
    have hH : calculate_entropy G = -(((G.map (fun p => p / G.sum)).map realTerm).sum) := by
      rcases hw with h1 | h1
      · rw [calculate_entropy_noRenorm G hne hpos (by rw [h1]; norm_num [eps])]
        have : G.map (fun p => p / G.sum) = G := by
          rw [h1]
          simp
        rw [this]
      · exact calculate_entropy_renorm G hne hpos h1 hw1
    have hmapeq : G.map (fun p => p / S) =
        (G.map (fun p => p / G.sum)).map (fun q => q * (G.sum / S)) := by
      rw [List.map_map]
      apply List.map_congr_left
      intro p hp
      show p / S = p / G.sum * (G.sum / S)
      field_simp
    have hposn : ∀ q ∈ G.map (fun p => p / G.sum), 0 < q := by
      intro q hq
      obtain ⟨p, hp, rfl⟩ := List.mem_map.mp hq
      exact div_pos (lt_trans eps_pos (hpos p hp)) hw0
    have hcpos : (0 : ℚ) < G.sum / S := div_pos hw0 hSpos
    have e1 : G.map (fun p => realTerm (p / S)) = (G.map (fun p => p / S)).map realTerm := by
      rw [List.map_map]
      rfl
    rw [e1, hmapeq, sum_realTerm_mul _ hposn _ hcpos, sum_map_ratCast, sum_map_div,
      div_self (ne_of_gt hw0), hH]
    push_cast
    ring

/-- C8 (corrected).  The computed information gain is nonnegative when no
epsilon branch of `_calculate_entropy` distorts the computation: the
subset's extracted probabilities (each above `1e-9` by construction) sum
to at most `1`, and each answer group's mass is either exactly `1` or
farther than `1e-9` from `1`.  (Inside the `|mass − 1| ≤ 1e-9` band with
`mass ≠ 1` the group entropy is computed on unnormalized values and the
gain can dip below zero.) -/
theorem claim_C8_gain_nonneg (c : Catalog) (s : GameState) (subset : List String)
    (attrName : String)
    (hne : subsetProbsDict c s subset ≠ [])
    (hS1 : ((subsetProbsDict c s subset).map Prod.snd).sum ≤ 1)
    (hY : (((subsetProbsDict c s subset).filter
          (fun np => decide (personAttrVal c np.1 attrName = 1))).map Prod.snd).sum = 1 ∨
        eps < |(((subsetProbsDict c s subset).filter
          (fun np => decide (personAttrVal c np.1 attrName = 1))).map Prod.snd).sum - 1|)
    (hN : (((subsetProbsDict c s subset).filter
          (fun np => decide (¬personAttrVal c np.1 attrName = 1))).map Prod.snd).sum = 1 ∨
        eps < |(((subsetProbsDict c s subset).filter
          (fun np => decide (¬personAttrVal c np.1 attrName = 1))).map Prod.snd).sum - 1|) :
    0 ≤ computedInfoGain c s subset attrName := by
  simp only [computedInfoGain, infoGainForAttr]
  set D := subsetProbsDict c s subset with hDdef
  have hpos : ∀ np ∈ D, eps < np.2 := by
    intro np h
    rw [hDdef] at h
    exact (subsetProbsDict_mem h).2
  set pY := fun np : String × ℚ => decide (personAttrVal c np.1 attrName = 1) with hpYdef
  have hnotp : (fun np : String × ℚ => decide (¬personAttrVal c np.1 attrName = 1)) =
      fun np => !(pY np) := by
    funext np
    rw [hpYdef]
    exact decide_not
  rw [hnotp] at hN ⊢
  set Y := D.filter pY with hYdef
  set N := D.filter (fun np => !(pY np)) with hNdef
  set wY := (Y.map Prod.snd).sum with hwYdef
  set wN := (N.map Prod.snd).sum with hwNdef
  set S := (D.map Prod.snd).sum with hSdef
  have hposS : ∀ q ∈ D.map Prod.snd, eps < q := by
    intro q hq
    obtain ⟨np, hnp, rfl⟩ := List.mem_map.mp hq
    exact hpos np hnp
  have hmapne : D.map Prod.snd ≠ [] := by simpa using hne
  have hSeps : eps < S := by rw [hSdef]; exact eps_lt_sum _ hmapne hposS
  have hSpos : (0 : ℚ) < S := lt_trans eps_pos hSeps
  have hposY : ∀ p ∈ Y.map Prod.snd, eps < p := by
    intro p hp
    obtain ⟨np, hnp, rfl⟩ := List.mem_map.mp hp
    exact hpos np (List.mem_of_mem_filter hnp)
  have hposN : ∀ p ∈ N.map Prod.snd, eps < p := by
    intro p hp
    obtain ⟨np, hnp, rfl⟩ := List.mem_map.mp hp
    exact hpos np (List.mem_of_mem_filter hnp)
  have hsplitQ : wY + wN = S := by
    rw [hwYdef, hwNdef, hSdef, hYdef, hNdef]
    exact sum_map_filter_split D pY Prod.snd
  have hwYnn : 0 ≤ wY := by
    rw [hwYdef]
    exact List.sum_nonneg (fun p hp => le_of_lt (lt_trans eps_pos (hposY p hp)))
  have hwNnn : 0 ≤ wN := by
    rw [hwNdef]
    exact List.sum_nonneg (fun p hp => le_of_lt (lt_trans eps_pos (hposN p hp)))
  have hwYle : wY ≤ S := by linarith
  have hwNle : wN ≤ S := by linarith
  have hnormpos : ∀ q ∈ D.map (fun np => np.2 / S), eps < q := by
    intro q hq
    obtain ⟨np, hnp, rfl⟩ := List.mem_map.mp hq
    have hpe := hpos np hnp
    have hp0 : 0 < np.2 := lt_trans eps_pos hpe
    calc eps < np.2 := hpe
    _ ≤ np.2 / S := by
      rw [le_div_iff₀ hSpos]
      nlinarith
  have hnormne : D.map (fun np => np.2 / S) ≠ [] := by simpa using hne
  have hnormsum : (D.map (fun np => np.2 / S)).sum = 1 := by
    have e : D.map (fun np => np.2 / S) = (D.map Prod.snd).map (fun p => p / S) := by
      rw [List.map_map]
      rfl
    rw [e, sum_map_div, ← hSdef, div_self (ne_of_gt hSpos)]
  have hHsub : calculate_entropy (D.map (fun np => np.2 / S)) =
      -((D.map (fun np => realTerm (np.2 / S))).sum) := by
    rw [calculate_entropy_noRenorm _ hnormne hnormpos (by rw [hnormsum]; norm_num [eps])]
    congr 1
    rw [List.map_map]
    rfl
  have hsplitR : (Y.map (fun np => realTerm (np.2 / S))).sum +
      (N.map (fun np => realTerm (np.2 / S))).sum =
      (D.map (fun np => realTerm (np.2 / S))).sum := by
    rw [hYdef, hNdef]
    exact sum_map_filter_split D pY _
  have hcY : (Y.map (fun np => realTerm (np.2 / S))).sum =
      ((wY / S : ℚ) : ℝ) * (-(calculate_entropy (Y.map Prod.snd))) +
        ((wY / S : ℚ) : ℝ) * Real.logb 2 ((wY / S : ℚ) : ℝ) := by
    have e : Y.map (fun np => realTerm (np.2 / S)) =
        (Y.map Prod.snd).map (fun p => realTerm (p / S)) := by
      rw [List.map_map]
      rfl
    have h := group_contribution (Y.map Prod.snd) S hposY hSpos (by rw [← hwYdef]; exact hwYle)
      hS1 (by rw [← hwYdef]; exact hY)
    rw [e, h, ← hwYdef]
  have hcN : (N.map (fun np => realTerm (np.2 / S))).sum =
      ((wN / S : ℚ) : ℝ) * (-(calculate_entropy (N.map Prod.snd))) +
        ((wN / S : ℚ) : ℝ) * Real.logb 2 ((wN / S : ℚ) : ℝ) := by
    have e : N.map (fun np => realTerm (np.2 / S)) =
        (N.map Prod.snd).map (fun p => realTerm (p / S)) := by
      rw [List.map_map]
      rfl
    have h := group_contribution (N.map Prod.snd) S hposN hSpos (by rw [← hwNdef]; exact hwNle)
      hS1 (by rw [← hwNdef]; exact hN)
    rw [e, h, ← hwNdef]
  rw [hHsub, ← hsplitR, hcY, hcN]
  have hcYnn : (0 : ℝ) ≤ ((wY / S : ℚ) : ℝ) := by
    have : (0 : ℚ) ≤ wY / S := div_nonneg hwYnn (le_of_lt hSpos)
    exact_mod_cast this
  have hcNnn : (0 : ℝ) ≤ ((wN / S : ℚ) : ℝ) := by
    have : (0 : ℚ) ≤ wN / S := div_nonneg hwNnn (le_of_lt hSpos)
    exact_mod_cast this
  have hcYle : ((wY / S : ℚ) : ℝ) ≤ 1 := by
    have : wY / S ≤ 1 := (div_le_one hSpos).mpr hwYle
    exact_mod_cast this
  have hcNle : ((wN / S : ℚ) : ℝ) ≤ 1 := by
    have : wN / S ≤ 1 := (div_le_one hSpos).mpr hwNle
    exact_mod_cast this
  have hLY : Real.logb 2 ((wY / S : ℚ) : ℝ) ≤ 0 :=
    Real.logb_nonpos one_lt_two hcYnn hcYle
  have hLN : Real.logb 2 ((wN / S : ℚ) : ℝ) ≤ 0 :=
    Real.logb_nonpos one_lt_two hcNnn hcNle
  nlinarith [mul_nonneg hcYnn (neg_nonneg.mpr hLY), mul_nonneg hcNnn (neg_nonneg.mpr hLN)]

/-- Concrete input for the C8 witness: catalog `cat3`, probabilities
`[1/2, 1/4, 1/4]`, attribute `a` (masses `3/4` and `1/4`). -/
theorem claim_C8_gain_nonneg_witness :
    (subsetProbsDict cat3 ⟨[1/2, 1/4, 1/4], [], 0⟩ ["X", "Y", "Z"] ≠ [] ∧
      ((subsetProbsDict cat3 ⟨[1/2, 1/4, 1/4], [], 0⟩ ["X", "Y", "Z"]).map Prod.snd).sum ≤ 1 ∧
      eps < |(((subsetProbsDict cat3 ⟨[1/2, 1/4, 1/4], [], 0⟩ ["X", "Y", "Z"]).filter
        (fun np => decide (personAttrVal cat3 np.1 ("a") = 1))).map Prod.snd).sum - 1| ∧
      eps < |(((subsetProbsDict cat3 ⟨[1/2, 1/4, 1/4], [], 0⟩ ["X", "Y", "Z"]).filter
        (fun np => decide (¬personAttrVal cat3 np.1 ("a") = 1))).map Prod.snd).sum - 1|) ∧
    0 ≤ computedInfoGain cat3 ⟨[1/2, 1/4, 1/4], [], 0⟩ ["X", "Y", "Z"] ("a") := by
  have hD : subsetProbsDict cat3 ⟨[1/2, 1/4, 1/4], [], 0⟩ ["X", "Y", "Z"] =
      [("X", 1/2), ("Y", 1/4), ("Z", 1/4)] := by
    norm_num +decide [subsetProbsDict, lookupPair, allPersonNames, cat3, eps, List.filterMap]
  have h1 : subsetProbsDict cat3 ⟨[1/2, 1/4, 1/4], [], 0⟩ ["X", "Y", "Z"] ≠ [] := by
    rw [hD]
    simp
  have h2 : ((subsetProbsDict cat3 ⟨[1/2, 1/4, 1/4], [], 0⟩ ["X", "Y", "Z"]).map
      Prod.snd).sum ≤ 1 := by
    rw [hD]
    norm_num
  have h3 : eps < |(((subsetProbsDict cat3 ⟨[1/2, 1/4, 1/4], [], 0⟩ ["X", "Y", "Z"]).filter
      (fun np => decide (personAttrVal cat3 np.1 ("a") = 1))).map Prod.snd).sum - 1| := by
    rw [hD]
    norm_num +decide [personAttrVal, lookupPerson, lookupAttrValue, cat3, eps, abs]
  have h4 : eps < |(((subsetProbsDict cat3 ⟨[1/2, 1/4, 1/4], [], 0⟩ ["X", "Y", "Z"]).filter
      (fun np => decide (¬personAttrVal cat3 np.1 ("a") = 1))).map Prod.snd).sum - 1| := by
    rw [hD]
    norm_num +decide [personAttrVal, lookupPerson, lookupAttrValue, cat3, eps, abs]
  exact ⟨⟨h1, h2, h3, h4⟩,
    claim_C8_gain_nonneg cat3 ⟨[1/2, 1/4, 1/4], [], 0⟩ ["X", "Y", "Z"] ("a") h1 h2
      (Or.inr h3) (Or.inr h4)⟩

/-- C8 counterexample.  On four identical candidates holding mass
`1 + 10⁻¹⁰`, the subset entropy is computed on the normalized values
(`log2 4 = 2`) while the single answer group's entropy is computed on the
raw unnormalized values (the `|mass − 1| ≤ 1e-9` band skips
renormalization), so the computed information gain is strictly
negative. -/
theorem claim_C8_counterexample :
    computedInfoGain cat4 ⟨[qC8, qC8, qC8, qC8], [], 0⟩ ["P1", "P2", "P3", "P4"] ("a") < 0 := by
  have hD : subsetProbsDict cat4 ⟨[qC8, qC8, qC8, qC8], [], 0⟩ ["P1", "P2", "P3", "P4"] =
      [("P1", qC8), ("P2", qC8), ("P3", qC8), ("P4", qC8)] := by
    norm_num +decide [subsetProbsDict, lookupPair, allPersonNames, cat4, qC8, eps,
      List.filterMap]
  simp only [computedInfoGain, infoGainForAttr]
  rw [hD]
  have hfY : ([("P1", qC8), ("P2", qC8), ("P3", qC8), ("P4", qC8)].filter
      (fun np => decide (personAttrVal cat4 np.1 ("a") = 1))) =
      [("P1", qC8), ("P2", qC8), ("P3", qC8), ("P4", qC8)] := by
    apply List.filter_eq_self.mpr
    intro a ha
    fin_cases ha <;> decide
  have hfN : ([("P1", qC8), ("P2", qC8), ("P3", qC8), ("P4", qC8)].filter
      (fun np => decide (¬personAttrVal cat4 np.1 ("a") = 1))) = [] := by
    apply List.filter_eq_nil_iff.mpr
    intro a ha
    fin_cases ha <;> decide
  rw [hfY, hfN]
  have hmsnd : ([("P1", qC8), ("P2", qC8), ("P3", qC8), ("P4", qC8)].map Prod.snd) =
      [qC8, qC8, qC8, qC8] := rfl
  have hmnil : (([] : List (String × ℚ)).map Prod.snd) = [] := rfl
  rw [hmsnd, hmnil]
  have hS0 : ([qC8, qC8, qC8, qC8] : List ℚ).sum = 10000000001 / 10000000000 := by
    norm_num [qC8]
  rw [hS0]
  have hnorml : ([("P1", qC8), ("P2", qC8), ("P3", qC8), ("P4", qC8)].map
      (fun np => np.2 / (10000000001 / 10000000000 : ℚ))) = [1/4, 1/4, 1/4, 1/4] := by
    norm_num [qC8]
  rw [hnorml]
  have hl4 : Real.logb 2 (4 : ℝ) = 2 := by
    rw [show (4 : ℝ) = (2 : ℝ) ^ (2 : ℕ) by norm_num, Real.logb_pow,
      Real.logb_self_eq_one one_lt_two]
    norm_num
  have hone : calculate_entropy [(1 : ℚ)/4, 1/4, 1/4, 1/4] = 2 := by
    rw [calculate_entropy_noRenorm _ (by simp) (by intro p hp; fin_cases hp <;>
      norm_num [eps]) (by norm_num [eps])]
    simp only [List.map_cons, List.map_nil, List.sum_cons, List.sum_nil, realTerm]
    have hc : (((1 : ℚ)/4 : ℚ) : ℝ) = 1/4 := by norm_num
    rw [hc]
    have hl : Real.logb 2 ((1 : ℝ)/4) = -2 := by
      rw [show ((1 : ℝ)/4) = ((4 : ℝ))⁻¹ by norm_num, Real.logb_inv, hl4]
    rw [hl]
    norm_num
  rw [hone]
  have hq : ((qC8 : ℚ) : ℝ) = (10000000001 / 10000000000 : ℝ) / 4 := by
    norm_num [qC8]
  have hlogq : Real.logb 2 ((qC8 : ℚ) : ℝ) =
      Real.logb 2 (10000000001 / 10000000000 : ℝ) - 2 := by
    rw [hq, Real.logb_div (by norm_num) (by norm_num), hl4]
  have hApos : (0 : ℝ) < 10000000001 / 10000000000 := by norm_num
  have hHyes : calculate_entropy [qC8, qC8, qC8, qC8] =
      (10000000001 / 10000000000 : ℝ) *
        (2 - Real.logb 2 (10000000001 / 10000000000 : ℝ)) := by
    have habs : ¬eps < |([qC8, qC8, qC8, qC8] : List ℚ).sum - 1| := by
      rw [hS0, show (10000000001 / 10000000000 - 1 : ℚ) = 1 / 10000000000 by norm_num,
        abs_of_pos (by norm_num)]
      norm_num [eps]
    rw [calculate_entropy_noRenorm _ (by simp) (by intro p hp; fin_cases hp <;>
      norm_num [qC8, eps]) habs]
    simp only [List.map_cons, List.map_nil, List.sum_cons, List.sum_nil, realTerm]
    rw [hlogq, hq]
    ring
  rw [hHyes, calculate_entropy_nil]
  have hw1 : (((10000000001 / 10000000000 : ℚ)) / (10000000001 / 10000000000 : ℚ) : ℚ) = 1 := by
    norm_num
  rw [hw1]
  have hw0 : (((0 : ℚ)) / (10000000001 / 10000000000 : ℚ) : ℚ) = 0 := by norm_num
  have hmnilsum : (([] : List ℚ)).sum = 0 := rfl
  rw [hmnilsum, hw0]
  push_cast
  -- goal: 2 - (1 * (A * (2 - L)) + 0 * 0) < 0 with A = 1 + 10⁻¹⁰, L = logb 2 A
  have hlogA : Real.log (10000000001 / 10000000000 : ℝ) ≤ 1 / 10000000000 := by
    have h := Real.log_le_sub_one_of_pos hApos
    calc Real.log (10000000001 / 10000000000 : ℝ)
        ≤ (10000000001 / 10000000000 : ℝ) - 1 := h
    _ = 1 / 10000000000 := by norm_num
  have hlog2pos : (0 : ℝ) < Real.log 2 := Real.log_pos one_lt_two
  have hlog2lb : (0.6931471803 : ℝ) < Real.log 2 := Real.log_two_gt_d9
  have hL : Real.logb 2 (10000000001 / 10000000000 : ℝ) ≤
      (1 / 10000000000 : ℝ) / 0.6931471803 := by
    rw [Real.logb]
    calc Real.log (10000000001 / 10000000000 : ℝ) / Real.log 2
        ≤ (1 / 10000000000 : ℝ) / Real.log 2 := by gcongr
    _ ≤ (1 / 10000000000 : ℝ) / 0.6931471803 := by gcongr
  have hmul : (10000000001 / 10000000000 : ℝ) *
      Real.logb 2 (10000000001 / 10000000000 : ℝ) ≤
      (10000000001 / 10000000000 : ℝ) * ((1 / 10000000000 : ℝ) / 0.6931471803) :=
    mul_le_mul_of_nonneg_left hL (le_of_lt hApos)
  have hval : (10000000001 / 10000000000 : ℝ) * ((1 / 10000000000 : ℝ) / 0.6931471803) <
      2 / 10000000000 := by norm_num
  nlinarith [hmul, hval]

/-- The arg-max fold of `_calculate_info_gain_for_subset` either keeps
the initial candidate or returns one of the evaluated attributes. -/
lemma igFold_fst (c : Catalog) (dict : List (String × ℚ)) (S : ℚ) (hS : ℝ)
    (attrs : List String) (acc : Option String × ℝ) :
    (attrs.foldl (igStep c dict S hS) acc).1 = acc.1 ∨
      ∃ x ∈ attrs, (attrs.foldl (igStep c dict S hS) acc).1 = some x := by
  induction attrs generalizing acc with
  | nil => exact Or.inl rfl
  | cons a t ih =>
    simp only [List.foldl_cons]
    rcases ih (igStep c dict S hS acc a) with h | h
    · by_cases hg : acc.2 < infoGainForAttr c dict S hS a
      · right
        refine ⟨a, List.mem_cons_self _ _, ?_⟩
        rw [h]
        simp [igStep, hg]
      · left
        rw [h]
        simp [igStep, hg]
    · obtain ⟨x, hx, hh⟩ := h
      exact Or.inr ⟨x, List.mem_cons_of_mem _ hx, hh⟩

/-- A returned attribute of `_calculate_info_gain_for_subset` is one of
the evaluated attributes. -/
lemma ig_mem {c : Catalog} {s : GameState} {subset attrs : List String} {a : String}
    (h : calculate_info_gain_for_subset c s subset attrs = some a) : a ∈ attrs := by
  simp only [calculate_info_gain_for_subset] at h
  split_ifs at h with h1 h2 h3 h4 h5
  rcases igFold_fst c (subsetProbsDict c s subset)
      (((subsetProbsDict c s subset).map Prod.snd).sum)
      (calculate_entropy ((subsetProbsDict c s subset).map
        (fun np => np.2 / ((subsetProbsDict c s subset).map Prod.snd).sum)))
      attrs ((none : Option String), -1) with h6 | h6
  · rw [h6] at h
    exact absurd h (by simp)
  · obtain ⟨x, hx, h7⟩ := h6
    rw [h7] at h
    exact (Option.some_inj.mp h) ▸ hx

/-- With constant gains, the arg-max fold never moves once the running
maximum matches the common gain. -/
lemma igFold_stay (c : Catalog) (dict : List (String × ℚ)) (S : ℚ) (hS : ℝ) (g : ℝ)
    (attrs : List String) (acc : Option String × ℝ)
    (hg : ∀ a ∈ attrs, infoGainForAttr c dict S hS a = g) (hacc : ¬acc.2 < g) :
    attrs.foldl (igStep c dict S hS) acc = acc := by
  induction attrs generalizing acc with
  | nil => rfl
  | cons a t ih =>
    simp only [List.foldl_cons]
    have hga := hg a (List.mem_cons_self _ _)
    have hstep : igStep c dict S hS acc a = acc := by
      simp [igStep, hga, hacc]
    rw [hstep]
    exact ih _ (fun x hx => hg x (List.mem_cons_of_mem _ hx)) hacc

/-- With constant gains, the arg-max fold from the `-1` seed returns the
first attribute (or nothing when the common gain is at most `-1`). -/
lemma igFold_const (c : Catalog) (dict : List (String × ℚ)) (S : ℚ) (hS : ℝ) (g : ℝ)
    (a : String) (t : List String)
    (hg : ∀ x ∈ a :: t, infoGainForAttr c dict S hS x = g) :
    (a :: t).foldl (igStep c dict S hS) ((none : Option String), -1) =
      if (-1 : ℝ) < g then (some a, g) else ((none : Option String), -1) := by
  simp only [List.foldl_cons]
  have hga := hg a (List.mem_cons_self _ _)
  by_cases h1 : (-1 : ℝ) < g
  · rw [if_pos h1]
    have hstep : igStep c dict S hS ((none : Option String), -1) a = (some a, g) := by
      simp [igStep, hga, h1]
    rw [hstep]
    exact igFold_stay c dict S hS g t _ (fun x hx => hg x (List.mem_cons_of_mem _ hx))
      (lt_irrefl g)
  · rw [if_neg h1]
    have hstep : igStep c dict S hS ((none : Option String), -1) a =
        ((none : Option String), -1) := by
      simp [igStep, hga, h1]
    rw [hstep]
    exact igFold_stay c dict S hS g t _ (fun x hx => hg x (List.mem_cons_of_mem _ hx)) h1

/-- When every dictionary member agrees on an attribute (all `1` or all
not `1`), the information gain of that attribute collapses to the subset
entropy minus the whole group's entropy — independent of the attribute. -/
lemma infoGainForAttr_uniform (c : Catalog) (dict : List (String × ℚ))
    (hSne : ((dict.map Prod.snd).sum : ℚ) ≠ 0) (hS : ℝ) (a : String)
    (h : (∀ np ∈ dict, personAttrVal c np.1 a = 1) ∨
      (∀ np ∈ dict, personAttrVal c np.1 a ≠ 1)) :
    infoGainForAttr c dict ((dict.map Prod.snd).sum) hS a =
      hS - calculate_entropy (dict.map Prod.snd) := by
  rcases h with h | h
  · have hYf : dict.filter (fun np => decide (personAttrVal c np.1 a = 1)) = dict :=
      List.filter_eq_self.mpr (fun np hnp => by simpa using h np hnp)
    have hNf : dict.filter (fun np => decide (¬personAttrVal c np.1 a = 1)) = [] :=
      List.filter_eq_nil_iff.mpr (fun np hnp => by simpa using h np hnp)
    simp only [infoGainForAttr, hYf, hNf]
    rw [div_self hSne]
    simp only [List.map_nil, List.sum_nil, zero_div, calculate_entropy_nil]
    push_cast
    ring
  · have hYf : dict.filter (fun np => decide (personAttrVal c np.1 a = 1)) = [] :=
      List.filter_eq_nil_iff.mpr (fun np hnp => by simpa using h np hnp)
    have hNf : dict.filter (fun np => decide (¬personAttrVal c np.1 a = 1)) = dict :=
      List.filter_eq_self.mpr (fun np hnp => by simpa using h np hnp)
    simp only [infoGainForAttr, hYf, hNf]
    rw [div_self hSne]
    simp only [List.map_nil, List.sum_nil, zero_div, calculate_entropy_nil]
    push_cast
    ring

/-- Lookup in the zipped name/probability association recovers a member
pair when names are distinct. -/
lemma lookupPair_zip (names : List String) (probs : List ℚ) (hnd : names.Nodup)
    {n : String} {p : ℚ} (h : (n, p) ∈ names.zip probs) :
    lookupPair (names.zip probs) n = some p := by
  induction names generalizing probs with
  | nil => simp at h
  | cons a ns ih =>
    cases probs with
    | nil => simp at h
    | cons b ps =>
      rw [List.zip_cons_cons] at h
      rcases List.mem_cons.mp h with h1 | h1
      · have hn : n = a := congrArg Prod.fst h1
        have hp : p = b := congrArg Prod.snd h1
        subst hn
        subst hp
        simp [lookupPair]
      · have hn : n ∈ ns := (List.of_mem_zip h1).1
        have hane : a ≠ n := fun hcc => (List.nodup_cons.mp hnd).1 (hcc ▸ hn)
        simp only [lookupPair]
        rw [if_neg hane]
        exact ih ps (List.Nodup.of_cons hnd) h1

/-- An active candidate name looks up to its probability, which exceeds
`1e-9`. -/
lemma active_lookup {c : Catalog} {s : GameState} (hnd : (allPersonNames c).Nodup)
    {n : String} (h : n ∈ activeCandidateNamesOf c s) :
    ∃ p, lookupPair ((allPersonNames c).zip s.probabilities) n = some p ∧ eps < p := by
  simp only [activeCandidateNamesOf] at h
  obtain ⟨np, hnp, rfl⟩ := List.mem_map.mp h
  have hmemz : np ∈ (allPersonNames c).zip s.probabilities := List.mem_of_mem_filter hnp
  have hpe : eps < np.2 := by simpa using (List.mem_filter.mp hnp).2
  refine ⟨np.2, ?_, hpe⟩
  exact lookupPair_zip _ _ hnd (by simpa using hmemz)

/-- The dictionary extracted for a non-empty subset of active names is
non-empty. -/
lemma subsetProbsDict_ne_nil {c : Catalog} {s : GameState}
    (hnd : (allPersonNames c).Nodup) {subset : List String} (hne : subset ≠ [])
    (hsub : ∀ n ∈ subset, n ∈ activeCandidateNamesOf c s) :
    subsetProbsDict c s subset ≠ [] := by
  match subset, hne with
  | n₀ :: rest, _ =>
    obtain ⟨p₀, hlk, hpe⟩ := active_lookup hnd (hsub n₀ (List.mem_cons_self _ _))
    simp only [subsetProbsDict, List.filterMap_cons, hlk, if_pos hpe]
    exact List.cons_ne_nil _ _

/-- Members of the top-k focus list are active candidate names. -/
lemma get_top_k_mem {c : Catalog} {s : GameState} {k : ℕ} {n : String}
    (h : n ∈ get_top_k_candidates c s k) : n ∈ activeCandidateNamesOf c s := by
  simp only [get_top_k_candidates] at h
  by_cases hact : (((allPersonNames c).zip s.probabilities).filter
      (fun np => decide (eps < np.2))) = []
  · rw [if_pos hact] at h
    simp at h
  · rw [if_neg hact] at h
    obtain ⟨np, hnp, rfl⟩ := List.mem_map.mp h
    have h1 := List.mem_of_mem_take hnp
    have h2 := List.mem_mergeSort.mp h1
    exact List.mem_map.mpr ⟨np, h2, rfl⟩

/-- A list whose members are pairwise equal deduplicates to at most one
element. -/
lemma dedup_length_le_one {α : Type*} [DecidableEq α] (l : List α)
    (h : ∀ x ∈ l, ∀ y ∈ l, x = y) : l.dedup.length ≤ 1 := by
  cases hld : l.dedup with
  | nil => simp
  | cons x t2 =>
    cases t2 with
    | nil => simp
    | cons y t3 =>
      exfalso
      have hnd := l.nodup_dedup
      rw [hld] at hnd
      have hx : x ∈ l := List.mem_dedup.mp (by rw [hld]; exact List.mem_cons_self _ _)
      have hy : y ∈ l := List.mem_dedup.mp
        (by rw [hld]; exact List.mem_cons_of_mem _ (List.mem_cons_self _ _))
      have hxy : x = y := h x hx y hy
      exact (List.nodup_cons.mp hnd).1 (hxy ▸ List.mem_cons_self _ _)

/-- When every evaluated attribute is uniform across the extracted
dictionary, `_calculate_info_gain_for_subset` returns either nothing or
the first evaluated attribute (all gains tie, and the fold keeps the
first strict improvement over the `-1` seed). -/
lemma ig_subset_uniform (c : Catalog) (s : GameState) (subset attrs : List String)
    (huni : ∀ a ∈ attrs, (∀ np ∈ subsetProbsDict c s subset, personAttrVal c np.1 a = 1) ∨
      (∀ np ∈ subsetProbsDict c s subset, personAttrVal c np.1 a ≠ 1)) :
    calculate_info_gain_for_subset c s subset attrs = none ∨
      calculate_info_gain_for_subset c s subset attrs = attrs.head? := by
  simp only [calculate_info_gain_for_subset]
  by_cases h1 : subset = []
  · rw [if_pos h1]
    exact Or.inl rfl
  rw [if_neg h1]
  by_cases h2 : subset.length = 1 ∧ minQuestionsBeforeConfidentGuess ≤ s.questionsAskedCount
  · rw [if_pos h2]
    exact Or.inl rfl
  rw [if_neg h2]
  by_cases h3 : subsetProbsDict c s subset = []
  · rw [if_pos h3]
    exact Or.inl rfl
  rw [if_neg h3]
  by_cases h4 : ((subsetProbsDict c s subset).map Prod.snd).sum < eps
  · rw [if_pos h4]
    exact Or.inl rfl
  rw [if_neg h4]
  have hSne : ((subsetProbsDict c s subset).map Prod.snd).sum ≠ 0 := by
    intro h0
    exact h4 (by rw [h0]; exact eps_pos)
  set H1 := calculate_entropy ((subsetProbsDict c s subset).map
    (fun np => np.2 / ((subsetProbsDict c s subset).map Prod.snd).sum)) with hH1
  set H2 := calculate_entropy ((subsetProbsDict c s subset).map Prod.snd) with hH2
  cases attrs with
  | nil =>
    left
    rw [List.foldl_nil, show (((none : Option String), (-1 : ℝ))).2 = (-1 : ℝ) from rfl,
      if_neg (by norm_num [epsR, eps])]
  | cons a t =>
    have hgain : ∀ x ∈ a :: t, infoGainForAttr c (subsetProbsDict c s subset)
        (((subsetProbsDict c s subset).map Prod.snd).sum) H1 x = H1 - H2 :=
      fun x hx => infoGainForAttr_uniform c _ hSne H1 x (huni x hx)
    rw [igFold_const c _ _ H1 (H1 - H2) a t hgain]
    by_cases hg1 : (-1 : ℝ) < H1 - H2
    · rw [if_pos hg1, show ((some a, H1 - H2) : Option String × ℝ).2 = H1 - H2 from rfl,
        show ((some a, H1 - H2) : Option String × ℝ).1 = some a from rfl]
      by_cases hg2 : epsR < H1 - H2
      · right
        rw [if_pos hg2]
        rfl
      · left
        rw [if_neg hg2]
    · rw [if_neg hg1, show (((none : Option String), (-1 : ℝ))).2 = (-1 : ℝ) from rfl]
      left
      rw [if_neg (by norm_num [epsR, eps])]

/-- Uniformity of attribute values over the active candidates transfers
to the dictionary extracted for any subset of them. -/
lemma uniform_on_subset (c : Catalog) (s : GameState)
    (hact : activeCandidateNamesOf c s ≠ [])
    (hid : ∀ a ∈ unaskedAttributesOf c s, ∀ n ∈ activeCandidateNamesOf c s,
      ∀ m ∈ activeCandidateNamesOf c s, personAttrVal c n a = personAttrVal c m a)
    (subset : List String) (hsub : ∀ n ∈ subset, n ∈ activeCandidateNamesOf c s) :
    ∀ a ∈ unaskedAttributesOf c s,
      (∀ np ∈ subsetProbsDict c s subset, personAttrVal c np.1 a = 1) ∨
      (∀ np ∈ subsetProbsDict c s subset, personAttrVal c np.1 a ≠ 1) := by
  intro a ha
  obtain ⟨n₀, hn₀⟩ := List.exists_mem_of_ne_nil _ hact
  by_cases hv : personAttrVal c n₀ a = 1
  · left
    intro np hnp
    rw [hid a ha np.1 (hsub np.1 (subsetProbsDict_mem hnp).1) n₀ hn₀]
    exact hv
  · right
    intro np hnp
    rw [hid a ha np.1 (hsub np.1 (subsetProbsDict_mem hnp).1) n₀ hn₀]
    exact hv

/-- Totality of the global phase of `select_next_question`: the global
information-gain call, the varying-attribute scan and the last resort
always produce some unasked attribute. -/
lemma select_global_total (c : Catalog) (s : GameState)
    (hun : unaskedAttributesOf c s ≠ []) :
    ∃ a, (match calculate_info_gain_for_subset c s (activeCandidateNamesOf c s)
          (unaskedAttributesOf c s) with
        | some q => some q
        | none =>
          match (unaskedAttributesOf c s).find? (fun a =>
              decide (1 < (((activeCandidateNamesOf c s).map
                (fun n => personAttrVal c n a)).dedup).length)) with
          | some a => some a
          | none => (unaskedAttributesOf c s).head?) = some a ∧
      a ∈ unaskedAttributesOf c s := by
  cases hig : calculate_info_gain_for_subset c s (activeCandidateNamesOf c s)
      (unaskedAttributesOf c s) with
  | some q => exact ⟨q, rfl, ig_mem hig⟩
  | none =>
    cases hf : (unaskedAttributesOf c s).find? (fun a =>
        decide (1 < (((activeCandidateNamesOf c s).map
          (fun n => personAttrVal c n a)).dedup).length)) with
    | some x => exact ⟨x, rfl, List.mem_of_find?_eq_some hf⟩
    | none =>
      cases hu : unaskedAttributesOf c s with
      | nil => exact absurd hu hun
      | cons a0 t0 => exact ⟨a0, rfl, List.mem_cons_self _ _⟩

/-- The global phase returns the first unasked attribute when all active
candidates agree on every unasked attribute. -/
lemma select_global_uniform (c : Catalog) (s : GameState)
    (hun : unaskedAttributesOf c s ≠ [])
    (hact : activeCandidateNamesOf c s ≠ [])
    (hid : ∀ a ∈ unaskedAttributesOf c s, ∀ n ∈ activeCandidateNamesOf c s,
      ∀ m ∈ activeCandidateNamesOf c s, personAttrVal c n a = personAttrVal c m a) :
    (match calculate_info_gain_for_subset c s (activeCandidateNamesOf c s)
        (unaskedAttributesOf c s) with
      | some q => some q
      | none =>
        match (unaskedAttributesOf c s).find? (fun a =>
            decide (1 < (((activeCandidateNamesOf c s).map
              (fun n => personAttrVal c n a)).dedup).length)) with
        | some a => some a
        | none => (unaskedAttributesOf c s).head?) = (unaskedAttributesOf c s).head? := by
  have hfind : (unaskedAttributesOf c s).find? (fun a =>
      decide (1 < (((activeCandidateNamesOf c s).map
        (fun n => personAttrVal c n a)).dedup).length)) = none := by
    apply List.find?_eq_none.mpr
    intro a ha
    have hle : (((activeCandidateNamesOf c s).map
        (fun n => personAttrVal c n a)).dedup).length ≤ 1 := by
      apply dedup_length_le_one
      intro x hx y hy
      obtain ⟨n, hn, rfl⟩ := List.mem_map.mp hx
      obtain ⟨m, hm, rfl⟩ := List.mem_map.mp hy
      exact hid a ha n hn m hm
    simp only [decide_eq_true_eq]
    omega
  rcases ig_subset_uniform c s (activeCandidateNamesOf c s) (unaskedAttributesOf c s)
      (uniform_on_subset c s hact hid _ (fun n h => h)) with hig | hig
  · rw [hig, hfind]
  · rw [hig]
    cases hu : unaskedAttributesOf c s with
    | nil => exact absurd hu hun
    | cons a0 t0 => rfl

/-- C7 (confirmed).  First conjunct: whenever unasked attributes remain
and some identity is active, `select_next_question` returns some unasked
attribute and never `none`.  Second conjunct: when additionally every
active identity carries identical values on every unasked attribute
(names being distinct), every information-gain tie collapses and the
selector returns the *first* unasked attribute. -/
theorem claim_C7_selector_total :
    (∀ (c : Catalog) (s : GameState), unaskedAttributesOf c s ≠ [] →
      activeCandidateNamesOf c s ≠ [] →
      ∃ a, select_next_question c s = some a ∧ a ∈ unaskedAttributesOf c s) ∧
    (∀ (c : Catalog) (s : GameState), (allPersonNames c).Nodup →
      unaskedAttributesOf c s ≠ [] → activeCandidateNamesOf c s ≠ [] →
      (∀ a ∈ unaskedAttributesOf c s, ∀ n ∈ activeCandidateNamesOf c s,
        ∀ m ∈ activeCandidateNamesOf c s, personAttrVal c n a = personAttrVal c m a) →
      select_next_question c s = (unaskedAttributesOf c s).head?) := by
  constructor
  · intro c s hun hact
    simp only [select_next_question]
    rw [if_neg hun, if_neg hact]
    by_cases hfoc : softEliminationQuestionsCount < s.questionsAskedCount
    · rw [if_pos hfoc]
      by_cases htk : 2 ≤ (get_top_k_candidates c s topKCandidatesFocus).length
      · rw [if_pos htk]
        cases higf : calculate_info_gain_for_subset c s
            (get_top_k_candidates c s topKCandidatesFocus) (unaskedAttributesOf c s) with
        | some q => exact ⟨q, rfl, ig_mem higf⟩
        | none => exact select_global_total c s hun
      · rw [if_neg htk]
        exact select_global_total c s hun
    · rw [if_neg hfoc]
      exact select_global_total c s hun
  · intro c s hnd hun hact hid
    simp only [select_next_question]
    rw [if_neg hun, if_neg hact]
    by_cases hfoc : softEliminationQuestionsCount < s.questionsAskedCount
    · rw [if_pos hfoc]
      by_cases htk : 2 ≤ (get_top_k_candidates c s topKCandidatesFocus).length
      · rw [if_pos htk]
        rcases ig_subset_uniform c s (get_top_k_candidates c s topKCandidatesFocus)
            (unaskedAttributesOf c s)
            (uniform_on_subset c s hact hid _ (fun n h => get_top_k_mem h)) with higf | higf
        · rw [higf]
          exact select_global_uniform c s hun hact hid
        · rw [higf]
          cases hu : unaskedAttributesOf c s with
          | nil => exact absurd hu hun
          | cons a0 t0 => rfl
      · rw [if_neg htk]
        exact select_global_uniform c s hun hact hid
    · rw [if_neg hfoc]
      exact select_global_uniform c s hun hact hid

/-- Concrete input for the C7 witness: both identities share every
attribute value, so the selector returns the first unasked attribute. -/
theorem claim_C7_selector_total_witness :
    ((allPersonNames catC).Nodup ∧
      unaskedAttributesOf catC ⟨[1/2, 1/2], [], 0⟩ ≠ [] ∧
      activeCandidateNamesOf catC ⟨[1/2, 1/2], [], 0⟩ ≠ [] ∧
      (∀ a ∈ unaskedAttributesOf catC ⟨[1/2, 1/2], [], 0⟩,
        ∀ n ∈ activeCandidateNamesOf catC ⟨[1/2, 1/2], [], 0⟩,
        ∀ m ∈ activeCandidateNamesOf catC ⟨[1/2, 1/2], [], 0⟩,
        personAttrVal catC n a = personAttrVal catC m a)) ∧
    select_next_question catC ⟨[1/2, 1/2], [], 0⟩ =
      (unaskedAttributesOf catC ⟨[1/2, 1/2], [], 0⟩).head? := by
  have hact : activeCandidateNamesOf catC ⟨[1/2, 1/2], [], 0⟩ = ["W", "V"] := by
    norm_num +decide [activeCandidateNamesOf, allPersonNames, catC, eps]
  have h1 : (allPersonNames catC).Nodup := by decide
  have h2 : unaskedAttributesOf catC ⟨[1/2, 1/2], [], 0⟩ ≠ [] := by decide
  have h3 : activeCandidateNamesOf catC ⟨[1/2, 1/2], [], 0⟩ ≠ [] := by
    rw [hact]
    simp
  have h4 : ∀ a ∈ unaskedAttributesOf catC ⟨[1/2, 1/2], [], 0⟩,
      ∀ n ∈ activeCandidateNamesOf catC ⟨[1/2, 1/2], [], 0⟩,
      ∀ m ∈ activeCandidateNamesOf catC ⟨[1/2, 1/2], [], 0⟩,
      personAttrVal catC n a = personAttrVal catC m a := by
    rw [hact]
    decide
  exact ⟨⟨h1, h2, h3, h4⟩,
    claim_C7_selector_total.2 catC ⟨[1/2, 1/2], [], 0⟩ h1 h2 h3 h4⟩
